import Mathlib

/-!
Shallow embedding of the `mini_spreadsheet` formula engine (Rust sources under
`src/src/`), together with proofs about its data model and algorithms.

Modelling conventions:
* Rust `usize` is modelled as `Nat`; a subtraction that would underflow, an
  `expect`/`unwrap` on a missing value, a `panic!` or an `unreachable!` is
  modelled by returning `none` (the abort marker) from an `Option`-valued
  function.  Machine-width wraparound of additions and multiplications is not
  modelled; no claim under consideration depends on values near `2^64`.
* Rust `f64` is modelled as `ℚ`.  No claim under consideration depends on
  IEEE-754 rounding, infinities or NaN; the one caveat (division by zero,
  which yields `±inf`/NaN for `f64` and `0` in `ℚ`) is outside every claim.
* `HashMap` is modelled as an association list in insertion order; `Vec` as a
  `List`.  `Vec::push`/`Vec::pop` (LIFO at the back) is modelled by
  `cons`/head-matching at the front, which has the same LIFO semantics.
* Rust `Result<T, E>` is modelled as `Except E T`.
-/

namespace MiniSheet

/-- Cell address, from `src/src/common_types.rs` (`struct Index`). -/
structure Index where
  x : Nat
  y : Nat
deriving DecidableEq

/-- Alias for the builtin booleans, so that the `Bool` constructors of
`Value` and `Token` below can refer to them unambiguously. -/
abbrev RBool := Bool

/-- `enum Value`, from `src/src/common_types.rs`.  `f64` modelled as `ℚ`. -/
inductive Value where
  | Text : String → Value
  | Number : ℚ → Value
  | Bool : RBool → Value
deriving DecidableEq

/-- `enum Token`, from `src/src/common_types.rs`. -/
inductive Token where
  | CellName : String → Token
  | Number : ℚ → Token
  | StringLiteral : String → Token
  | Plus | Minus | Division | Multiply | LParen | RParen | Colon | Comma : Token
  | FunctionName : String → Token
  | Bool : RBool → Token
  | Equals | NotEquals | GreaterThan | LessThan | GreaterEquals | LessEquals : Token
  | And | Or | Not : Token
deriving DecidableEq

/-- `Token::get_precedence`, from `src/src/common_types.rs`. -/
def Token.get_precedence : Token → Nat
  | Token.Or => 0
  | Token.And => 1
  | Token.Equals | Token.NotEquals | Token.GreaterThan | Token.LessThan
  | Token.GreaterEquals | Token.LessEquals => 2
  | Token.Plus | Token.Minus => 3
  | Token.Division | Token.Multiply => 4
  | Token.Not => 5
  | _ => 0

/-- `enum AST`, from `src/src/common_types.rs`.  The `Range` fields are the
two corner cell names; `from` is a Lean keyword so the anonymous-constructor
form is used. -/
inductive AST where
  | CellName : String → AST
  | Value : Value → AST
  | BinaryOp : Token → AST → AST → AST
  | UnaryOp : Token → AST → AST
  | Range : String → String → AST
  | FunctionCall : String → List AST → AST

mutual

/-- Decidable equality for the nested inductive `AST` (the automatic deriving
does not handle the `List AST` field). -/
def AST.decEq : (a b : AST) → Decidable (a = b)
  | .CellName x, .CellName y =>
      if h : x = y then isTrue (by rw [h]) else isFalse (by simp [h])
  | .Value x, .Value y =>
      if h : x = y then isTrue (by rw [h]) else isFalse (by simp [h])
  | .BinaryOp o1 l1 r1, .BinaryOp o2 l2 r2 =>
      if ho : o1 = o2 then
        match AST.decEq l1 l2, AST.decEq r1 r2 with
        | isTrue hl, isTrue hr => isTrue (by rw [ho, hl, hr])
        | isFalse hl, _ => isFalse (by simp [hl])
        | _, isFalse hr => isFalse (by simp [hr])
      else isFalse (by simp [ho])
  | .UnaryOp o1 e1, .UnaryOp o2 e2 =>
      if ho : o1 = o2 then
        match AST.decEq e1 e2 with
        | isTrue he => isTrue (by rw [ho, he])
        | isFalse he => isFalse (by simp [he])
      else isFalse (by simp [ho])
  | .Range f1 t1, .Range f2 t2 =>
      if h : f1 = f2 ∧ t1 = t2 then isTrue (by rw [h.1, h.2])
      else isFalse (by simp; intro h1 h2; exact h ⟨h1, h2⟩)
  | .FunctionCall n1 a1, .FunctionCall n2 a2 =>
      if hn : n1 = n2 then
        match AST.decEqList a1 a2 with
        | isTrue ha => isTrue (by rw [hn, ha])
        | isFalse ha => isFalse (by simp [ha])
      else isFalse (by simp [hn])
  | .CellName _, .Value _ => isFalse (fun h => AST.noConfusion h)
  | .CellName _, .BinaryOp _ _ _ => isFalse (fun h => AST.noConfusion h)
  | .CellName _, .UnaryOp _ _ => isFalse (fun h => AST.noConfusion h)
  | .CellName _, .Range _ _ => isFalse (fun h => AST.noConfusion h)
  | .CellName _, .FunctionCall _ _ => isFalse (fun h => AST.noConfusion h)
  | .Value _, .CellName _ => isFalse (fun h => AST.noConfusion h)
  | .Value _, .BinaryOp _ _ _ => isFalse (fun h => AST.noConfusion h)
  | .Value _, .UnaryOp _ _ => isFalse (fun h => AST.noConfusion h)
  | .Value _, .Range _ _ => isFalse (fun h => AST.noConfusion h)
  | .Value _, .FunctionCall _ _ => isFalse (fun h => AST.noConfusion h)
  | .BinaryOp _ _ _, .CellName _ => isFalse (fun h => AST.noConfusion h)
  | .BinaryOp _ _ _, .Value _ => isFalse (fun h => AST.noConfusion h)
  | .BinaryOp _ _ _, .UnaryOp _ _ => isFalse (fun h => AST.noConfusion h)
  | .BinaryOp _ _ _, .Range _ _ => isFalse (fun h => AST.noConfusion h)
  | .BinaryOp _ _ _, .FunctionCall _ _ => isFalse (fun h => AST.noConfusion h)
  | .UnaryOp _ _, .CellName _ => isFalse (fun h => AST.noConfusion h)
  | .UnaryOp _ _, .Value _ => isFalse (fun h => AST.noConfusion h)
  | .UnaryOp _ _, .BinaryOp _ _ _ => isFalse (fun h => AST.noConfusion h)
  | .UnaryOp _ _, .Range _ _ => isFalse (fun h => AST.noConfusion h)
  | .UnaryOp _ _, .FunctionCall _ _ => isFalse (fun h => AST.noConfusion h)
  | .Range _ _, .CellName _ => isFalse (fun h => AST.noConfusion h)
  | .Range _ _, .Value _ => isFalse (fun h => AST.noConfusion h)
  | .Range _ _, .BinaryOp _ _ _ => isFalse (fun h => AST.noConfusion h)
  | .Range _ _, .UnaryOp _ _ => isFalse (fun h => AST.noConfusion h)
  | .Range _ _, .FunctionCall _ _ => isFalse (fun h => AST.noConfusion h)
  | .FunctionCall _ _, .CellName _ => isFalse (fun h => AST.noConfusion h)
  | .FunctionCall _ _, .Value _ => isFalse (fun h => AST.noConfusion h)
  | .FunctionCall _ _, .BinaryOp _ _ _ => isFalse (fun h => AST.noConfusion h)
  | .FunctionCall _ _, .UnaryOp _ _ => isFalse (fun h => AST.noConfusion h)
  | .FunctionCall _ _, .Range _ _ => isFalse (fun h => AST.noConfusion h)

/-- Decidable equality for lists of `AST`, mutual with `AST.decEq`. -/
def AST.decEqList : (a b : List AST) → Decidable (a = b)
  | [], [] => isTrue rfl
  | [], _ :: _ => isFalse (by simp)
  | _ :: _, [] => isFalse (by simp)
  | a :: as, b :: bs =>
      match AST.decEq a b, AST.decEqList as bs with
      | isTrue h1, isTrue h2 => isTrue (by rw [h1, h2])
      | isFalse h1, _ => isFalse (by simp [h1])
      | _, isFalse h2 => isFalse (by simp [h2])

end

instance : DecidableEq AST := AST.decEq

/-- `struct Expression`, from `src/src/common_types.rs`. -/
structure Expression where
  ast : AST
  dependencies : List Index
deriving DecidableEq

/-- `enum ParsedCell`, from `src/src/common_types.rs`. -/
inductive ParsedCell where
  | Value : Value → ParsedCell
  | Expr : Expression → ParsedCell
deriving DecidableEq

/-- `struct ParseError`, from `src/src/common_types.rs`. -/
structure ParseError where
  msg : String
deriving DecidableEq

/-- `enum ComputeError`, from `src/src/common_types.rs`.  The extra
`InvalidArgument` variant appears in
`src/src/spreadsheet/parser/ast_resolver/builtin_functions.rs`, which
constructs `ComputeError::InvalidArgument(..)`; the embedding takes the union
of the variants the sources use. -/
inductive ComputeError where
  | ParseError : String → ComputeError
  | TypeError : ComputeError
  | UnfindableReference : String → ComputeError
  | Cycle : ComputeError
  | UnknownFunction : ComputeError
  | InvalidArgument : String → ComputeError
deriving DecidableEq

/-- `struct Cell`, from `src/src/common_types.rs`. -/
structure Cell where
  needs_compute : Bool
  raw_representation : String
  parsed_representation : Option (Except ParseError ParsedCell)
  computed_value : Option (Except ComputeError Value)

instance {ε α : Type} [DecidableEq ε] [DecidableEq α] : DecidableEq (Except ε α) := fun a b =>
  match a, b with
  | .ok x, .ok y => decidable_of_iff (x = y) (by constructor <;> (intro h; cases h; rfl))
  | .error x, .error y => decidable_of_iff (x = y) (by constructor <;> (intro h; cases h; rfl))
  | .ok _, .error _ => isFalse (by intro h; cases h)
  | .error _, .ok _ => isFalse (by intro h; cases h)

instance : DecidableEq Cell := fun a b =>
  decidable_of_iff
    (a.needs_compute = b.needs_compute ∧ a.raw_representation = b.raw_representation ∧
      a.parsed_representation = b.parsed_representation ∧ a.computed_value = b.computed_value)
    (by cases a; cases b; simp)

/-- `Cell::from_raw`, from `src/src/common_types.rs`. -/
def Cell.from_raw (raw : String) : Cell :=
  { raw_representation := raw
    parsed_representation := none
    computed_value := none
    needs_compute := true }

/-- `Value::add` — numeric addition or text concatenation. -/
def Value.add : Value → Value → Option Value
  | Value.Number a, Value.Number b => some (Value.Number (a + b))
  | Value.Text a, Value.Text b => some (Value.Text (a ++ b))
  | _, _ => none

/-- `Value::sub`. -/
def Value.sub : Value → Value → Option Value
  | Value.Number a, Value.Number b => some (Value.Number (a - b))
  | _, _ => none

/-- `Value::div` (`f64` division by zero yields `±inf`/NaN; in `ℚ` it yields
`0`; no claim depends on this case). -/
def Value.div : Value → Value → Option Value
  | Value.Number a, Value.Number b => some (Value.Number (a / b))
  | _, _ => none

/-- `Value::mult`. -/
def Value.mult : Value → Value → Option Value
  | Value.Number a, Value.Number b => some (Value.Number (a * b))
  | _, _ => none

/-- `Value::and`. -/
def Value.and : Value → Value → Option Value
  | Value.Bool a, Value.Bool b => some (Value.Bool (a && b))
  | _, _ => none

/-- `Value::or`. -/
def Value.or : Value → Value → Option Value
  | Value.Bool a, Value.Bool b => some (Value.Bool (a || b))
  | _, _ => none

/-- `Value::greater_than`. -/
def Value.greater_than : Value → Value → Option Value
  | Value.Number a, Value.Number b => some (Value.Bool (decide (a > b)))
  | _, _ => none

/-- `Value::less_than`. -/
def Value.less_than : Value → Value → Option Value
  | Value.Number a, Value.Number b => some (Value.Bool (decide (a < b)))
  | _, _ => none

/-- `Value::greater_equals`. -/
def Value.greater_equals : Value → Value → Option Value
  | Value.Number a, Value.Number b => some (Value.Bool (decide (a ≥ b)))
  | _, _ => none

/-- `Value::less_equals`. -/
def Value.less_equals : Value → Value → Option Value
  | Value.Number a, Value.Number b => some (Value.Bool (decide (a ≤ b)))
  | _, _ => none

/-! ### Address parsing and rendering

`ASTResolver::get_cell_idx` (src/src/spreadsheet/parser/ast_resolver.rs,
lines 69-86) and `column_idx_to_string` (src/src/gui.rs, lines 365-378). -/

/-- `usize::from_str` on the decimal remainder of a cell name, as called by
`cell_name[i..].parse::<usize>().expect("Invalid row number")`: succeeds
exactly on a non-empty all-digit string (width overflow not modelled). -/
def parseUsize (cs : List Char) : Option Nat :=
  if cs ≠ [] ∧ cs.all Char.isDigit then
    some (cs.foldl (fun a c => a * 10 + (c.toNat - 48)) 0)
  else
    none

/-- The character-scanning loop of `ASTResolver::get_cell_idx`: accumulate
column letters into `x`; at the first ASCII digit parse the remainder as the
row number and stop.  Aborts (`none`) when: the row parse fails, a letter is
below `'A'` (the `c as usize - 'A' as usize` subtraction would underflow),
the loop ends without finding a digit (`y` stays `0` and `y - 1` underflows),
or the final `x - 1` / `y - 1` adjustment underflows. -/
def get_cell_idxGo : List Char → Nat → Option Index
  | [], _ => none
  | c :: rest, x =>
    if c.isDigit then
      match parseUsize (c :: rest) with
      | none => none
      | some y => if x = 0 ∨ y = 0 then none else some ⟨x - 1, y - 1⟩
    else
      if c.toNat < 65 then none
      else get_cell_idxGo rest (x * 26 + (c.toNat - 65 + 1))

/-- `ASTResolver::get_cell_idx`.  `none` models the aborts described at
`get_cell_idxGo`. -/
def get_cell_idx (cell_name : String) : Option Index :=
  get_cell_idxGo cell_name.toList 0

/-- `ASTResolver::range_to_indeces` — the rectangular span of two corner
names, in the source's column-major push order.  Aborts if either corner name
aborts. -/
def range_to_indeces (f t : String) : Option (List Index) :=
  match get_cell_idx f, get_cell_idx t with
  | some start, some stop =>
      some ((List.range' start.x (stop.x + 1 - start.x)).flatMap (fun x =>
        (List.range' start.y (stop.y + 1 - start.y)).map (fun y => ⟨x, y⟩)))
  | _, _ => none

/-- The character list built by `column_idx_to_string` (src/src/gui.rs):
bijective base-26 column letters, most significant first. -/
def colChars (idx : Nat) : List Char :=
  if h : idx < 26 then
    [Char.ofNat (65 + idx % 26)]
  else
    colChars (idx / 26 - 1) ++ [Char.ofNat (65 + idx % 26)]
decreasing_by
  have h26 : idx / 26 < idx := Nat.div_lt_self (by omega) (by omega)
  omega

/-- `column_idx_to_string`, from `src/src/gui.rs`. -/
def column_idx_to_string (idx : Nat) : String :=
  String.mk (colChars idx)

/-- Decimal digit characters of a natural number, most significant first
(the textual form of Rust's `Display` for the 1-based row number). -/
def natDigits (n : Nat) : List Char :=
  if h : n < 10 then
    [Char.ofNat (48 + n % 10)]
  else
    natDigits (n / 10) ++ [Char.ofNat (48 + n % 10)]
decreasing_by
  have h10 : n / 10 < n := Nat.div_lt_self (by omega) (by omega)
  omega

/-- The external textual form of an address, per the data model: bijective
base-26 column letters followed by the 1-based decimal row number. -/
def renderIndex (x y : Nat) : String :=
  String.mk (colChars x ++ natDigits (y + 1))

/-! ### Tokenizer

From `src/src/spreadsheet/parser/tokenizer.rs`.  The iterator state
(`index`/`chars`) is modelled by passing the remaining character list.
`char::is_uppercase`/`is_lowercase` are Unicode predicates in Rust and are
modelled by the ASCII `Char.isUpper`/`Char.isLower`; the difference only
concerns non-ASCII letters, which no claim involves. -/

/-- `enum TokenizeError`, from `src/src/spreadsheet/parser/tokenizer.rs`. -/
inductive TokenizeError where
  | UnexpectedCharacter : Char → TokenizeError
  | InvalidCellName : String → TokenizeError
  | InvalidNumber : String → TokenizeError
deriving DecidableEq

/-- Rust `char::is_ascii_whitespace` (space, tab, newline, form feed,
carriage return). -/
def isAsciiWhitespace (c : Char) : Bool :=
  c = ' ' || c = '\t' || c = '\n' || c = Char.ofNat 12 || c = '\r'

/-- `ExpressionTokenizer::skip_whitespace` (the returned flag is unused by
the caller and dropped here). -/
def skip_whitespace (cs : List Char) : List Char :=
  cs.dropWhile isAsciiWhitespace

/-- `ExpressionTokenizer::parse_operator`: single-character tokens.  The
`unreachable!()` arm is `none`. -/
def parse_operator : Char → Option Token
  | '+' => some Token.Plus
  | '-' => some Token.Minus
  | '/' => some Token.Division
  | '*' => some Token.Multiply
  | '(' => some Token.LParen
  | ')' => some Token.RParen
  | ':' => some Token.Colon
  | ',' => some Token.Comma
  | _ => none

/-- `ExpressionTokenizer::parse_logical_operator`.  `first` is the popped
character; the `unreachable!()` arm is `none`. -/
def parse_logical_operator (first : Char) (rest : List Char) :
    Option (Except TokenizeError (Token × List Char)) :=
  if first = '=' then
    match rest with
    | '=' :: r => some (Except.ok (Token.Equals, r))
    | _ => some (Except.error (TokenizeError.UnexpectedCharacter '='))
  else if first = '!' then
    match rest with
    | '=' :: r => some (Except.ok (Token.NotEquals, r))
    | _ => some (Except.ok (Token.Not, rest))
  else if first = '>' then
    match rest with
    | '=' :: r => some (Except.ok (Token.GreaterEquals, r))
    | _ => some (Except.ok (Token.GreaterThan, rest))
  else if first = '<' then
    match rest with
    | '=' :: r => some (Except.ok (Token.LessEquals, r))
    | _ => some (Except.ok (Token.LessThan, rest))
  else if first = '&' then
    match rest with
    | '&' :: r => some (Except.ok (Token.And, r))
    | _ => some (Except.error (TokenizeError.UnexpectedCharacter '&'))
  else if first = '|' then
    match rest with
    | '|' :: r => some (Except.ok (Token.Or, r))
    | _ => some (Except.error (TokenizeError.UnexpectedCharacter '|'))
  else none

/-- `ExpressionTokenizer::parse_cell_name_or_bool`: a run of ASCII uppercase
letters, then `TRUE`/`FALSE` recognition, then a mandatory run of ASCII
digits for a cell name. -/
def parse_cell_name_or_bool (cs : List Char) :
    Except TokenizeError (Token × List Char) :=
  let letters := cs.takeWhile Char.isUpper
  let rest1 := cs.dropWhile Char.isUpper
  if String.mk letters = "TRUE" then Except.ok (Token.Bool true, rest1)
  else if String.mk letters = "FALSE" then Except.ok (Token.Bool false, rest1)
  else if letters = [] then Except.error (TokenizeError.InvalidCellName "")
  else
    let digits := rest1.takeWhile Char.isDigit
    let rest2 := rest1.dropWhile Char.isDigit
    if digits = [] then
      Except.error (TokenizeError.InvalidCellName (String.mk letters))
    else
      Except.ok (Token.CellName (String.mk (letters ++ digits)), rest2)

/-- `ExpressionTokenizer::parse_function_name`: a run of ASCII alphabetic
characters and underscores. -/
def parse_function_name (cs : List Char) :
    Except TokenizeError (Token × List Char) :=
  let name := cs.takeWhile (fun c => c.isAlpha || c = '_')
  let rest := cs.dropWhile (fun c => c.isAlpha || c = '_')
  Except.ok (Token.FunctionName (String.mk name), rest)

/-- `str::parse::<f64>` restricted to the strings the tokenizer and the cell
parser feed it: digit runs with at most one `.`.  (Rust also accepts
exponent forms such as `1e5`, which no claim involves; decimal-to-binary
rounding of `f64` is not modelled, per the header conventions.) -/
def parseF64 (cs : List Char) : Option ℚ :=
  let intPart := cs.takeWhile (fun c => c ≠ '.')
  let rest := cs.dropWhile (fun c => c ≠ '.')
  let intVal : ℚ := (intPart.foldl (fun a c => a * 10 + (c.toNat - 48)) 0 : Nat)
  match rest with
  | [] => if cs ≠ [] ∧ cs.all Char.isDigit then some intVal else none
  | _ :: frac =>
    if intPart.all Char.isDigit ∧ frac.all Char.isDigit ∧
        (intPart ≠ [] ∨ frac ≠ []) then
      some (intVal +
        ((frac.foldl (fun a c => a * 10 + (c.toNat - 48)) 0 : Nat) : ℚ)
          / ((10 : ℚ) ^ frac.length))
    else none

/-- `ExpressionTokenizer::parse_number`: a run of digits and dots, parsed as
`f64`. -/
def parse_number (cs : List Char) : Except TokenizeError (Token × List Char) :=
  let number := cs.takeWhile (fun c => c.isDigit || c = '.')
  let rest := cs.dropWhile (fun c => c.isDigit || c = '.')
  match parseF64 number with
  | some q => Except.ok (Token.Number q, rest)
  | none => Except.error (TokenizeError.InvalidNumber (String.mk number))

/-- One iteration of the `tokenize_expression` loop: dispatch on the peeked
character exactly as the source `match` does.  `none` models the panics
inside the helpers (all unreachable from the dispatch). -/
def tokenizeStep (cs : List Char) :
    Option (Except TokenizeError (Token × List Char)) :=
  match cs with
  | [] => none
  | c :: rest =>
    if c = '+' ∨ c = '-' ∨ c = '/' ∨ c = '*' ∨ c = '(' ∨ c = ')' ∨ c = ':' ∨
        c = ',' then
      match parse_operator c with
      | some t => some (Except.ok (t, rest))
      | none => none
    else if c = '=' ∨ c = '!' ∨ c = '>' ∨ c = '<' ∨ c = '&' ∨ c = '|' then
      parse_logical_operator c rest
    else if c.isUpper then some (parse_cell_name_or_bool cs)
    else if c.isLower then some (parse_function_name cs)
    else if c.isDigit then some (parse_number cs)
    else some (Except.error (TokenizeError.UnexpectedCharacter c))

/-- The `while !self.is_done()` loop of `tokenize_expression`, with explicit
fuel.  Every successful step consumes at least one character, so the fuel
chosen by `tokenize_expression` never runs out; exhaustion is mapped to the
abort marker `none`. -/
def tokenizeLoop : Nat → List Char → List Token → Option (Except TokenizeError (List Token))
  | 0, _, _ => none
  | fuel + 1, cs, acc =>
    match cs with
    | [] => some (Except.ok acc)
    | _ :: _ =>
      match tokenizeStep cs with
      | none => none
      | some (Except.error e) => some (Except.error e)
      | some (Except.ok (t, rest)) =>
          tokenizeLoop fuel (skip_whitespace rest) (acc ++ [t])

/-- `ExpressionTokenizer::tokenize_expression`. -/
def tokenize_expression (cs : List Char) :
    Option (Except TokenizeError (List Token)) :=
  tokenizeLoop (cs.length + 1) (skip_whitespace cs) []

/-! ### AST builder

From `src/src/spreadsheet/parser/ast_creator.rs`.  The `Peekable` token
iterator is modelled by passing the remaining token list; a result carries
the remaining tokens on success and on error (the iterator state after a
failure matters for `ASTCreator::parse`'s trailing-token check).  The
precedence-climbing recursion is driven by explicit fuel; `ASTCreator.parse`
supplies more fuel than any token list can consume, and exhaustion maps to
the abort marker `none`, which is unreachable from the public entry point. -/

/-- `enum ASTCreateError`, from `src/src/spreadsheet/parser/ast_creator.rs`. -/
inductive ASTCreateError where
  | UnexpectedToken : ASTCreateError
  | MismatchedParentheses : ASTCreateError
  | InvalidRange : ASTCreateError
deriving DecidableEq

/-- Parse outcome: the payload and the unconsumed tokens. -/
abbrev ParseRes := Except (ASTCreateError × List Token) (AST × List Token)

/-- `ASTCreator::peek_operator`. -/
def peek_operator (ts : List Token) : Option Token :=
  match ts with
  | Token.Plus :: _ => some Token.Plus
  | Token.Minus :: _ => some Token.Minus
  | Token.Multiply :: _ => some Token.Multiply
  | Token.Division :: _ => some Token.Division
  | Token.Equals :: _ => some Token.Equals
  | Token.NotEquals :: _ => some Token.NotEquals
  | Token.GreaterThan :: _ => some Token.GreaterThan
  | Token.LessThan :: _ => some Token.LessThan
  | Token.GreaterEquals :: _ => some Token.GreaterEquals
  | Token.LessEquals :: _ => some Token.LessEquals
  | Token.And :: _ => some Token.And
  | Token.Or :: _ => some Token.Or
  | Token.Not :: _ => some Token.Not
  | _ => none

mutual

/-- `ASTCreator::parse_expression`: primary, then the operator loop. -/
def parse_expression : Nat → Nat → List Token → Option ParseRes
  | 0, _, _ => none
  | fuel + 1, min_prec, ts =>
    match parse_primary fuel ts with
    | none => none
    | some (Except.error e) => some (Except.error e)
    | some (Except.ok (left, ts1)) => parseExprLoop fuel min_prec left ts1

/-- The `while let Some(op) = self.peek_operator()` loop inside
`parse_expression`. -/
def parseExprLoop : Nat → Nat → AST → List Token → Option ParseRes
  | 0, _, _, _ => none
  | fuel + 1, min_prec, left, ts =>
    match peek_operator ts with
    | none => some (Except.ok (left, ts))
    | some op =>
      if op.get_precedence < min_prec then some (Except.ok (left, ts))
      else
        if op = Token.Not then
          parseExprLoop fuel min_prec (AST.UnaryOp op left) ts.tail
        else
          match parse_expression fuel (op.get_precedence + 1) ts.tail with
          | none => none
          | some (Except.error e) => some (Except.error e)
          | some (Except.ok (right, ts2)) =>
              parseExprLoop fuel min_prec (AST.BinaryOp op left right) ts2

/-- `ASTCreator::parse_primary`. -/
def parse_primary : Nat → List Token → Option ParseRes
  | 0, _ => none
  | fuel + 1, ts =>
    match ts with
    | Token.FunctionName name :: ts1 =>
      match ts1 with
      | t :: ts2 =>
        if t = Token.LParen then
          match parse_function_arguements fuel [] false ts2 with
          | none => none
          | some (Except.error e) => some (Except.error e)
          | some (Except.ok (args, ts3)) =>
              some (Except.ok (AST.FunctionCall name args, ts3))
        else some (Except.error (ASTCreateError.UnexpectedToken, ts2))
      | [] => some (Except.error (ASTCreateError.UnexpectedToken, []))
    | Token.CellName name :: ts1 =>
      match ts1 with
      | Token.Colon :: ts2 =>
        match ts2 with
        | Token.CellName to_name :: ts3 =>
            some (Except.ok (AST.Range name to_name, ts3))
        | _ :: ts3 => some (Except.error (ASTCreateError.InvalidRange, ts3))
        | [] => some (Except.error (ASTCreateError.InvalidRange, []))
      | _ => some (Except.ok (AST.CellName name, ts1))
    | Token.Number n :: ts1 => some (Except.ok (AST.Value (Value.Number n), ts1))
    | Token.LParen :: ts1 =>
      match parse_expression fuel 0 ts1 with
      | none => none
      | some (Except.error e) => some (Except.error e)
      | some (Except.ok (expr, ts2)) =>
        match ts2 with
        | Token.RParen :: ts3 => some (Except.ok (expr, ts3))
        | _ :: ts3 => some (Except.error (ASTCreateError.MismatchedParentheses, ts3))
        | [] => some (Except.error (ASTCreateError.MismatchedParentheses, []))
    | Token.Bool b :: ts1 => some (Except.ok (AST.Value (Value.Bool b), ts1))
    | Token.Not :: ts1 =>
      match parse_expression fuel (Token.Not.get_precedence) ts1 with
      | none => none
      | some (Except.error e) => some (Except.error e)
      | some (Except.ok (expr, ts2)) =>
          some (Except.ok (AST.UnaryOp Token.Not expr, ts2))
    | _ :: ts1 => some (Except.error (ASTCreateError.UnexpectedToken, ts1))
    | [] => some (Except.error (ASTCreateError.UnexpectedToken, []))

/-- `ASTCreator::parse_function_arguements`, with the `expecting_comma`
flag and the accumulated arguments made explicit. -/
def parse_function_arguements : Nat → List AST → Bool → List Token →
    Option (Except (ASTCreateError × List Token) (List AST × List Token))
  | 0, _, _, _ => none
  | fuel + 1, args, expecting_comma, ts =>
    if expecting_comma then
      match ts with
      | Token.Comma :: ts1 => parse_function_arguements fuel args false ts1
      | Token.RParen :: ts1 => some (Except.ok (args, ts1))
      | _ :: ts1 => some (Except.error (ASTCreateError.UnexpectedToken, ts1))
      | [] => some (Except.error (ASTCreateError.MismatchedParentheses, []))
    else
      match parse_expression fuel 0 ts with
      | none => none
      | some (Except.error e) => some (Except.error e)
      | some (Except.ok (arg, ts1)) =>
          parse_function_arguements fuel (args ++ [arg]) true ts1

end

/-- `ASTCreator::parse`: parse the top-level expression, then reject any
trailing unconsumed token (also after an inner error, as the source's
`self.tokens.next()` check does). -/
def ASTCreator_parse (ts : List Token) : Option (Except ASTCreateError AST) :=
  match parse_expression (8 * ts.length + 8) 0 ts with
  | none => none
  | some (Except.ok (ast, rest)) =>
    match rest with
    | [] => some (Except.ok ast)
    | _ :: _ => some (Except.error ASTCreateError.UnexpectedToken)
  | some (Except.error (e, rest)) =>
    match rest with
    | [] => some (Except.error e)
    | _ :: _ => some (Except.error ASTCreateError.UnexpectedToken)

/-! ### Cell parser façade

From `src/src/spreadsheet/parser.rs`. -/

/-- `CellParser::find_dependants`: one entry per `CellName` token, in token
order; `none` when `get_cell_idx` aborts on one of the names. -/
def find_dependants : List Token → Option (List Index)
  | [] => some []
  | Token.CellName name :: rest =>
    match get_cell_idx name with
    | none => none
    | some i =>
      match find_dependants rest with
      | none => none
      | some l => some (i :: l)
  | _ :: rest => find_dependants rest

/-- The `ParseError` message produced for each `TokenizeError` in
`CellParser::parse_expression` (source typo preserved). -/
def tokErrMsg : TokenizeError → String
  | TokenizeError.UnexpectedCharacter c => "Unexpected characther: " ++ c.toString
  | TokenizeError.InvalidCellName name => "Invalid cell name: " ++ name
  | TokenizeError.InvalidNumber num => "Invalid number format: " ++ num

/-- The `ParseError` message produced for each `ASTCreateError` in
`CellParser::parse_expression`. -/
def astErrMsg : ASTCreateError → String
  | ASTCreateError.UnexpectedToken => "Unexpected Token"
  | ASTCreateError.MismatchedParentheses => "Mismatched Parentheses"
  | ASTCreateError.InvalidRange => "Invalid Range Expression"

/-- The classification done by `CellParser::parse_cell` on the raw text:
formula / number / text.  `none` models the `unreachable!()` on empty raw
text and the aborts inside the formula pipeline (`find_dependants` on a
row-0 cell name). -/
def parse_cellRaw (raw : String) : Option (Except ParseError ParsedCell) :=
  match raw.toList with
  | [] => none
  | c :: rest =>
    if c = '=' then
      match tokenize_expression rest with
      | none => none
      | some (Except.error e) => some (Except.error ⟨tokErrMsg e⟩)
      | some (Except.ok tokens) =>
        match find_dependants tokens with
        | none => none
        | some deps =>
          match ASTCreator_parse tokens with
          | none => none
          | some (Except.error e) => some (Except.error ⟨astErrMsg e⟩)
          | some (Except.ok ast) => some (Except.ok (ParsedCell.Expr ⟨ast, deps⟩))
    else if c.isDigit then
      match parseF64 (c :: rest) with
      | some n => some (Except.ok (ParsedCell.Value (Value.Number n)))
      | none =>
          some (Except.error
            ⟨"Had error: -invalid float literal- parsing number " ++ raw⟩)
    else some (Except.ok (ParsedCell.Value (Value.Text raw)))

/-- `CellParser::parse_cell`: store the parse outcome in the cell. -/
def CellParser_parse_cell (cell : Cell) : Option Cell :=
  match parse_cellRaw cell.raw_representation with
  | none => none
  | some pr => some { cell with parsed_representation := some pr }

/-! ### Built-in function table

From `src/src/spreadsheet/parser/ast_resolver/builtin_functions.rs`. -/

/-- `f64::MAX` as an exact rational: `(2^53 - 1) * 2^971`. -/
def f64MAX : ℚ := (2 : ℚ) ^ (1024 : ℕ) - (2 : ℚ) ^ (971 : ℕ)

/-- `f64::MIN` as an exact rational. -/
def f64MIN : ℚ := -f64MAX

def sumGo : ℚ → List Value → Except ComputeError Value
  | acc, [] => Except.ok (Value.Number acc)
  | acc, Value.Number n :: rest => sumGo (acc + n) rest
  | _, _ =>
    Except.error (ComputeError.InvalidArgument ("sum expects only numeric values"))

/-- `builtin_functions::sum`. -/
def sum (args : List Value) : Except ComputeError Value := sumGo 0 args

def productGo : ℚ → List Value → Except ComputeError Value
  | acc, [] => Except.ok (Value.Number acc)
  | acc, Value.Number n :: rest => productGo (acc * n) rest
  | _, _ =>
    Except.error (ComputeError.InvalidArgument ("product expects only numeric values"))

/-- `builtin_functions::product`. -/
def product (args : List Value) : Except ComputeError Value := productGo 1 args

def maxGo : ℚ → List Value → Except ComputeError Value
  | acc, [] => Except.ok (Value.Number acc)
  | acc, Value.Number n :: rest => maxGo (if acc ≤ n then n else acc) rest
  | _, _ =>
    Except.error (ComputeError.InvalidArgument ("max expects only numeric values"))

/-- `builtin_functions::max`: fold `f64::max` starting from `f64::MIN`. -/
def maxF (args : List Value) : Except ComputeError Value :=
  if args.isEmpty then
    Except.error (ComputeError.InvalidArgument ("max expects at least one numeric value"))
  else maxGo f64MIN args

def minGo : ℚ → List Value → Except ComputeError Value
  | acc, [] => Except.ok (Value.Number acc)
  | acc, Value.Number n :: rest => minGo (if n ≤ acc then n else acc) rest
  | _, _ =>
    Except.error (ComputeError.InvalidArgument ("min expects only numeric values"))

/-- `builtin_functions::min`: fold `f64::min` starting from `f64::MAX`. -/
def minF (args : List Value) : Except ComputeError Value :=
  if args.isEmpty then
    Except.error (ComputeError.InvalidArgument ("min expects at least one numeric value"))
  else minGo f64MAX args

def averageGo : ℚ → List Value → Except ComputeError Value
  | acc, [] => Except.ok (Value.Number acc)
  | acc, Value.Number n :: rest => averageGo (acc + n) rest
  | _, _ =>
    Except.error (ComputeError.InvalidArgument ("average expects only numeric values"))

/-- `builtin_functions::average`. -/
def average (args : List Value) : Except ComputeError Value :=
  if args.isEmpty then
    Except.error (ComputeError.InvalidArgument ("average expects at least one numeric value"))
  else
    match averageGo 0 args with
    | Except.ok (Value.Number s) => Except.ok (Value.Number (s / (args.length : ℚ)))
    | r => r

def countGo : ℚ → List Value → Except ComputeError Value
  | acc, [] => Except.ok (Value.Number acc)
  | acc, Value.Number _ :: rest => countGo (acc + 1) rest
  | _, _ =>
    Except.error (ComputeError.InvalidArgument ("count expects only numeric values"))

/-- `builtin_functions::count` (the source errors on a non-numeric
argument rather than skipping it). -/
def count (args : List Value) : Except ComputeError Value := countGo 0 args

/-- `builtin_functions::length` (Rust `String::len` is the UTF-8 byte
length). -/
def length (args : List Value) : Except ComputeError Value :=
  match args with
  | [Value.Text t] => Except.ok (Value.Number (t.utf8ByteSize : ℚ))
  | [_] => Except.error (ComputeError.InvalidArgument ("length expects a string argument"))
  | _ => Except.error (ComputeError.InvalidArgument ("length expects exactly one argument"))

/-- `builtin_functions::if_func`. -/
def if_func (args : List Value) : Except ComputeError Value :=
  match args with
  | [first, second, third] =>
    match first with
    | Value.Bool b => if b then Except.ok second else Except.ok third
    | _ =>
      Except.error
        (ComputeError.InvalidArgument ("if expects a boolean as the first argument"))
  | _ => Except.error (ComputeError.InvalidArgument ("if expects exactly three arguments"))

/-- `f64::round`: nearest integer, ties away from zero. -/
def qround (q : ℚ) : ℚ :=
  if 0 ≤ q then ((⌊q + 1 / 2⌋ : ℤ) : ℚ) else ((⌈q - 1 / 2⌉ : ℤ) : ℚ)

/-- `builtin_functions::round`. -/
def round (args : List Value) : Except ComputeError Value :=
  match args with
  | [Value.Number n] => Except.ok (Value.Number (qround n))
  | [_] => Except.error (ComputeError.InvalidArgument ("round expects a numeric argument"))
  | _ =>
    Except.error (ComputeError.InvalidArgument ("round expects exactly one numeric argument"))

/-- `builtin_functions::rand_func`.  The random draw is modelled by a fixed
value; no claim under consideration involves `rand`. -/
def rand_func (args : List Value) : Except ComputeError Value :=
  if args.isEmpty then Except.ok (Value.Number 0)
  else Except.error (ComputeError.InvalidArgument ("rand expects no arguments"))

/-- `f64::powf` restricted to integer exponents (`0` elsewhere); no claim
under consideration involves `pow`. -/
def qpowf (a b : ℚ) : ℚ :=
  if b.den = 1 then
    if 0 ≤ b.num then a ^ b.num.toNat else (a ^ (-b.num).toNat)⁻¹
  else 0

/-- `builtin_functions::power`. -/
def power (args : List Value) : Except ComputeError Value :=
  match args with
  | [num1, num2] =>
    match num1, num2 with
    | Value.Number n1, Value.Number n2 => Except.ok (Value.Number (qpowf n1 n2))
    | _, _ =>
      Except.error
        (ComputeError.InvalidArgument ("pow expects both arguments to be numeric"))
  | _ =>
    Except.error
      (ComputeError.InvalidArgument ("pow expects exactly two numeric arguments"))

/-- `builtin_functions::get_func`: the closed name table. -/
def get_func : String → Option (List Value → Except ComputeError Value)
  | "sum" => some MiniSheet.sum
  | "product" => some MiniSheet.product
  | "max" => some MiniSheet.maxF
  | "min" => some MiniSheet.minF
  | "average" => some MiniSheet.average
  | "count" => some MiniSheet.count
  | "length" => some MiniSheet.length
  | "if" => some MiniSheet.if_func
  | "round" => some MiniSheet.round
  | "rand" => some MiniSheet.rand_func
  | "pow" => some MiniSheet.power
  | _ => none

/-! ### Evaluator

From `src/src/spreadsheet/parser/ast_resolver.rs`.  The `VarContext` trait
is modelled as a lookup function. -/

/-- The `VarContext` trait: `get_variable`. -/
abbrev VarContext := Index → Option (Except ComputeError Value)

/-- `Option::ok_or(ComputeError::TypeError)` on a `Value` operation. -/
def optToRes (o : Option Value) : Except ComputeError Value :=
  match o with
  | some v => Except.ok v
  | none => Except.error ComputeError.TypeError

/-- The range-argument collection loop inside the `FunctionCall` arm of
`ASTResolver::resolve`: absent cells are skipped, stored errors propagate
(`var?`). -/
def collectRangeVals : List Index → VarContext → Except ComputeError (List Value)
  | [], _ => Except.ok []
  | i :: rest, ctx =>
    match ctx i with
    | none => collectRangeVals rest ctx
    | some (Except.error e) => Except.error e
    | some (Except.ok v) =>
      match collectRangeVals rest ctx with
      | Except.error e => Except.error e
      | Except.ok l => Except.ok (v :: l)

mutual

/-- `ASTResolver::resolve`.  `none` models the panics: the
`panic!("{other:?} is not a binary operator")` arm for any operator other
than `+ - * /` (comparison and logical operators land there), the missing
`UnaryOp` arm of the source's `match` (the source file has no arm for it),
and `get_cell_idx` aborts inside the `CellName` and `Range` arms. -/
def resolve (ast : AST) (ctx : VarContext) : Option (Except ComputeError Value) :=
  match ast with
  | AST.Value value => some (Except.ok value)
  | AST.CellName name =>
    match get_cell_idx name with
    | none => none
    | some idx =>
      match ctx idx with
      | some value => some value
      | none =>
        some (Except.error (ComputeError.UnfindableReference
          ("Could not find variable " ++ name ++ " with in context")))
  | AST.BinaryOp op left right =>
    match resolve left ctx with
    | none => none
    | some (Except.error e) => some (Except.error e)
    | some (Except.ok left_resolved) =>
      match resolve right ctx with
      | none => none
      | some (Except.error e) => some (Except.error e)
      | some (Except.ok right_resolved) =>
        match op with
        | Token.Plus => some (optToRes (left_resolved.add right_resolved))
        | Token.Minus => some (optToRes (left_resolved.sub right_resolved))
        | Token.Division => some (optToRes (left_resolved.div right_resolved))
        | Token.Multiply => some (optToRes (left_resolved.mult right_resolved))
        | _ => none
  | AST.UnaryOp _ _ => none
  | AST.Range _ _ => some (Except.error ComputeError.TypeError)
  | AST.FunctionCall name arguments =>
    match resolveArgs arguments ctx with
    | none => none
    | some (Except.error e) => some (Except.error e)
    | some (Except.ok resolved_args) =>
      match get_func name with
      | some func => some (func resolved_args)
      | none => some (Except.error ComputeError.UnknownFunction)

/-- The argument-resolution loop of the `FunctionCall` arm: a direct
`Range` argument is expanded via `range_to_indeces`, every other argument
is resolved recursively; the first error wins. -/
def resolveArgs (args : List AST) (ctx : VarContext) :
    Option (Except ComputeError (List Value)) :=
  match args with
  | [] => some (Except.ok [])
  | AST.Range f t :: rest =>
    match range_to_indeces f t with
    | none => none
    | some idxs =>
      match collectRangeVals idxs ctx with
      | Except.error e => some (Except.error e)
      | Except.ok vals =>
        match resolveArgs rest ctx with
        | none => none
        | some (Except.error e) => some (Except.error e)
        | some (Except.ok l) => some (Except.ok (vals ++ l))
  | a :: rest =>
    match resolve a ctx with
    | none => none
    | some (Except.error e) => some (Except.error e)
    | some (Except.ok v) =>
      match resolveArgs rest ctx with
      | none => none
      | some (Except.error e) => some (Except.error e)
      | some (Except.ok l) => some (Except.ok (v :: l))

end

/-! ### Dependency graph

From `src/src/spreadsheet/parser/dependancy_graph.rs`.  The
`HashMap<Index, Vec<Index>>` is an association list in insertion order;
`alGet`/`alSet` model `get`/in-place update, `entry(..).or_default()` and
`entry(..).or_insert(0)` append a fresh key at the end. -/

def alGet {α : Type} : List (Index × α) → Index → Option α
  | [], _ => none
  | (k', v) :: rest, k => if k' = k then some v else alGet rest k

def alSet {α : Type} : List (Index × α) → Index → α → List (Index × α)
  | [], k, v => [(k, v)]
  | (k', v') :: rest, k, v =>
    if k' = k then (k, v) :: rest else (k', v') :: alSet rest k v

/-- `struct DependancyGraph`. -/
structure DependancyGraph where
  allows_compute : List (Index × List Index)
deriving DecidableEq

/-- `struct TopologicalSort`. -/
structure TopologicalSort where
  sorted : List Index
  cycles : List Index
deriving DecidableEq

/-- `self.allows_compute.entry(idx).or_default()`. -/
def entryOrDefault (g : List (Index × List Index)) (k : Index) :
    List (Index × List Index) :=
  match alGet g k with
  | some _ => g
  | none => g ++ [(k, [])]

/-- `self.allows_compute.entry(*dependency).or_default().push(idx)`. -/
def entryPush (g : List (Index × List Index)) (dep idx : Index) :
    List (Index × List Index) :=
  match alGet g dep with
  | some l => alSet g dep (l ++ [idx])
  | none => g ++ [(dep, [idx])]

/-- `DependancyGraph::add_node`. -/
def DependancyGraph.add_node (g : DependancyGraph) (idx : Index)
    (cel_depends_on : List Index) : DependancyGraph :=
  ⟨cel_depends_on.foldl (fun acc dependency => entryPush acc dependency idx)
    (entryOrDefault g.allows_compute idx)⟩

/-- `DependancyGraph::remove_node`: the source only removes `index` from
every adjacency list (`retain`); the node's own key and out-edge list are
left in the map. -/
def DependancyGraph.remove_node (g : DependancyGraph) (index : Index) :
    DependancyGraph :=
  ⟨g.allows_compute.map (fun e => (e.1, e.2.filter (fun x => x ≠ index)))⟩

/-- `DependancyGraph::change_node`. -/
def DependancyGraph.change_node (g : DependancyGraph) (index : Index)
    (dependencies : List Index) : DependancyGraph :=
  (g.remove_node index).add_node index dependencies

/-- The inner push of `get_all_dependants`: append to `result` if new, and
push onto the worklist. -/
def gadPush (rs : List Index × List Index) (dependant : Index) :
    List Index × List Index :=
  if dependant ∈ rs.1 then rs else (rs.1 ++ [dependant], dependant :: rs.2)

/-- The `while let Some(cell) = to_process.pop()` loop of
`get_all_dependants`, with fuel (the entry point supplies more fuel than the
loop can consume: each pop removes one worklist entry and every adjacency
occurrence pushes at most once). -/
def gadLoop (g : List (Index × List Index)) :
    Nat → List Index → List Index → List Index
  | 0, result, _ => result
  | _ + 1, result, [] => result
  | fuel + 1, result, cell :: stk =>
    match alGet g cell with
    | none => gadLoop g fuel result stk
    | some dependants =>
      let p := dependants.foldl gadPush (result, stk)
      gadLoop g fuel p.1 p.2

/-- Fuel bound for the graph worklists: one unit per entry plus one per
adjacency occurrence. -/
def graphWeight (g : List (Index × List Index)) : Nat :=
  g.foldl (fun a e => a + 1 + e.2.length) 0

/-- `DependancyGraph::get_all_dependants`. -/
def DependancyGraph.get_all_dependants (g : DependancyGraph) (index : Index) :
    List Index :=
  gadLoop g.allows_compute (2 + graphWeight g.allows_compute) [] [index]

/-- `*in_degree.entry(*dependent).or_insert(0) += 1`. -/
def degBump (deg : List (Index × Nat)) (k : Index) : List (Index × Nat) :=
  match alGet deg k with
  | some v => alSet deg k (v + 1)
  | none => deg ++ [(k, 1)]

/-- `in_degree.entry(*node).or_insert(0)`. -/
def degEnsure (deg : List (Index × Nat)) (k : Index) : List (Index × Nat) :=
  match alGet deg k with
  | some _ => deg
  | none => deg ++ [(k, 0)]

/-- The in-degree build phase of `topological_sort`. -/
def buildInDegree (g : List (Index × List Index)) : List (Index × Nat) :=
  g.foldl (fun deg e => e.2.foldl degBump (degEnsure deg e.1)) []

/-- Decrement the in-degrees of one popped node's dependents, collecting the
nodes that reach zero onto the stack.  The `in_degree.get_mut` miss case
skips; the `*degree -= 1` underflow cannot occur (each in-edge of a node is
decremented at most once, when its source is popped, and sources pop at most
once), so `Nat` subtraction is exact here. -/
def kahnProcess (deps : List Index) (st : List (Index × Nat) × List Index) :
    List (Index × Nat) × List Index :=
  deps.foldl (fun st dependent =>
    match alGet st.1 dependent with
    | none => st
    | some d =>
      (alSet st.1 dependent (d - 1),
        if d - 1 = 0 then dependent :: st.2 else st.2)) st

/-- The `while let Some(node) = zero_in_degree.pop()` loop of
`topological_sort`, returning the sorted list and the final in-degree map. -/
def kahnLoop (g : List (Index × List Index)) :
    Nat → List (Index × Nat) → List Index → List Index →
      List Index × List (Index × Nat)
  | 0, deg, _, sorted => (sorted, deg)
  | _ + 1, deg, [], sorted => (sorted, deg)
  | fuel + 1, deg, node :: stk, sorted =>
    match alGet g node with
    | none => kahnLoop g fuel deg stk (sorted ++ [node])
    | some dependents =>
      let st := kahnProcess dependents (deg, stk)
      kahnLoop g fuel st.1 st.2 (sorted ++ [node])

/-- `DependancyGraph::topological_sort` (Kahn's algorithm).  The
`zero_in_degree` `Vec` is filled in map iteration order and popped from the
back, so the initial stack is the reversed zero-degree list. -/
def DependancyGraph.topological_sort (g : DependancyGraph) : TopologicalSort :=
  let deg := buildInDegree g.allows_compute
  let zero := (deg.filter (fun e => e.2 = 0)).map Prod.fst
  let res := kahnLoop g.allows_compute (deg.length + 1) deg zero.reverse []
  { sorted := res.1
    cycles := (res.2.filter (fun e => 0 < e.2)).map Prod.fst }

/-! ### Sheet engine

From `src/src/spreadsheet.rs`.  The `cells: HashMap<Index, Cell>` is an
association list in insertion order. -/

/-- `struct SpreadSheet`. -/
structure SpreadSheet where
  cells : List (Index × Cell)
  dependencies : DependancyGraph
deriving DecidableEq

/-- `SpreadSheet::get_computed`. -/
def SpreadSheet.get_computed (s : SpreadSheet) (index : Index) :
    Option (Except ComputeError Value) :=
  match alGet s.cells index with
  | none => none
  | some cell => cell.computed_value

/-- `SpreadSheet::get_raw`. -/
def SpreadSheet.get_raw (s : SpreadSheet) (index : Index) : Option String :=
  match alGet s.cells index with
  | none => none
  | some cell => some cell.raw_representation

/-- The `impl VarContext for SpreadSheet`: `get_variable` is
`get_computed`. -/
def sheetCtx (s : SpreadSheet) : VarContext := fun index => s.get_computed index

/-- `SpreadSheet::compute_cell`.  The outer `Option` is the abort marker
(`resolve` can panic); the inner `Option` is the source's return value. -/
def SpreadSheet.compute_cell (s : SpreadSheet) (cell : Cell) :
    Option (Option (Except ComputeError Value)) :=
  match cell.parsed_representation with
  | some (Except.ok (ParsedCell.Expr expr)) =>
    match resolve expr.ast (sheetCtx s) with
    | none => none
    | some r => some (some r)
  | some (Except.ok (ParsedCell.Value value)) => some (some (Except.ok value))
  | some (Except.error e) =>
      some (some (Except.error (ComputeError.ParseError e.msg)))
  | none => some none

/-- `SpreadSheet::add_dependencies`. -/
def SpreadSheet.add_dependencies (s : SpreadSheet) (index : Index) (cell : Cell) :
    SpreadSheet :=
  match cell.parsed_representation with
  | some (Except.ok (ParsedCell.Expr expr)) =>
    { s with dependencies := s.dependencies.add_node index expr.dependencies }
  | _ => { s with dependencies := s.dependencies.add_node index [] }

/-- `SpreadSheet::update_dependencies`. -/
def SpreadSheet.update_dependencies (s : SpreadSheet) (index : Index) (cell : Cell) :
    SpreadSheet :=
  match cell.parsed_representation with
  | some (Except.ok (ParsedCell.Expr expr)) =>
    { s with dependencies := s.dependencies.change_node index expr.dependencies }
  | _ => { s with dependencies := s.dependencies.change_node index [] }

/-- The first loop of `compute_all`: for each sorted node, recompute the
cell when present and dirty, clear `needs_compute`. -/
def computeSortedPass : List Index → SpreadSheet → Option SpreadSheet
  | [], s => some s
  | idx :: rest, s =>
    match alGet s.cells idx with
    | none => computeSortedPass rest s
    | some cell =>
      if cell.needs_compute = false then computeSortedPass rest s
      else
        match s.compute_cell cell with
        | none => none
        | some computed =>
          computeSortedPass rest
            { s with cells := (alSet s.cells idx
                { cell with computed_value := computed, needs_compute := false }) }

/-- The second loop of `compute_all`: each cycle node's cell is fetched with
`expect("should not fail")` (abort when absent); a dirty one gets `Cycle`
written into `computed_value` — the source does not clear `needs_compute`
here. -/
def computeCyclesPass : List Index → SpreadSheet → Option SpreadSheet
  | [], s => some s
  | idx :: rest, s =>
    match alGet s.cells idx with
    | none => none
    | some cell =>
      if cell.needs_compute = false then computeCyclesPass rest s
      else
        computeCyclesPass rest
          { s with cells := (alSet s.cells idx
              { cell with computed_value := some (Except.error ComputeError.Cycle) }) }

/-- `SpreadSheet::compute_all`. -/
def SpreadSheet.compute_all (s : SpreadSheet) : Option SpreadSheet :=
  let ts := s.dependencies.topological_sort
  match computeSortedPass ts.sorted s with
  | none => none
  | some s1 => computeCyclesPass ts.cycles s1

/-- The dirty-marking loop shared by the three edit operations, returning
the updated sheet and the `need_compute` flag. -/
def markDirty : List Index → SpreadSheet → SpreadSheet × Bool
  | [], s => (s, false)
  | dep :: rest, s =>
    match alGet s.cells dep with
    | none => markDirty rest s
    | some cell =>
      let r := markDirty rest
        { s with cells := alSet s.cells dep ({ cell with needs_compute := true }) }
      (r.1, true)

/-- `SpreadSheet::add_cell_and_compute`. -/
def SpreadSheet.add_cell_and_compute (s : SpreadSheet) (index : Index)
    (raw : String) : Option SpreadSheet :=
  match CellParser_parse_cell (Cell.from_raw raw) with
  | none => none
  | some cell =>
    let s1 := s.add_dependencies index cell
    match s1.compute_cell cell with
    | none => none
    | some computed =>
      let cell1 := { cell with computed_value := computed, needs_compute := false }
      let s2 := { s1 with cells := alSet s1.cells index cell1 }
      let md := markDirty (s2.dependencies.get_all_dependants index) s2
      if md.2 then md.1.compute_all else some md.1

/-- `SpreadSheet::remove_cell`. -/
def SpreadSheet.remove_cell (s : SpreadSheet) (index : Index) :
    Option SpreadSheet :=
  let md := markDirty (s.dependencies.get_all_dependants index) s
  let s1 : SpreadSheet :=
    { cells := md.1.cells.filter (fun e => e.1 ≠ index)
      dependencies := md.1.dependencies.remove_node index }
  if md.2 then s1.compute_all else some s1

/-- `SpreadSheet::mutate_cell`.  The `expect("Expected valid index for
mutate cell")` on a missing cell is the abort marker. -/
def SpreadSheet.mutate_cell (s : SpreadSheet) (index : Index)
    (new_raw : String) : Option SpreadSheet :=
  match CellParser_parse_cell (Cell.from_raw new_raw) with
  | none => none
  | some new_cell =>
    match s.compute_cell new_cell with
    | none => none
    | some computed =>
      let new_cell1 := { new_cell with computed_value := computed, needs_compute := false }
      let s1 := s.update_dependencies index new_cell1
      match alGet s1.cells index with
      | none => none
      | some _ =>
        let s2 := { s1 with cells := alSet s1.cells index new_cell1 }
        let md := markDirty (s2.dependencies.get_all_dependants index) s2
        if md.2 then md.1.compute_all else some md.1

/-- The empty spreadsheet (`SpreadSheet::default`). -/
def emptySheet : SpreadSheet := ⟨[], ⟨[]⟩⟩

/-! ### Association-list toolkit (for the Kahn proofs) -/

/-- The key sequence of an association list. -/
def keysOf {α : Type} (l : List (Index × α)) : List Index := l.map Prod.fst

/-- One entry's contribution to the pending in-degree of `v`: the
multiplicity of `v` in its adjacency list, unless its source is already
popped. -/
def entryCount (popped : List Index) (v : Index) (e : Index × List Index) : Nat :=
  if e.1 ∈ popped then 0 else e.2.count v

/-- The pending in-degree of `v`: edges into `v` whose source has not been
popped yet.  `pendIn g [] v` is the initial in-degree Kahn's algorithm
computes. -/
def pendIn (g : List (Index × List Index)) (popped : List Index) (v : Index) : Nat :=
  (g.map (entryCount popped v)).sum

/-- An edge `u → v` in a raw adjacency map. -/
def edgeL (g : List (Index × List Index)) (u v : Index) : Prop :=
  ∃ l, alGet g u = some l ∧ v ∈ l

/-- Membership in the node universe of `topological_sort`: a key of the
adjacency map or a target of one of its edges. -/
def nodeMem (g : List (Index × List Index)) (v : Index) : Prop :=
  v ∈ keysOf g ∨ ∃ e ∈ g, v ∈ e.2

/-- The loop invariant of Kahn's algorithm as implemented by
`topological_sort`: `deg` maps every node of the universe to its pending
in-degree (edges from not-yet-popped sources), the stack holds exactly the
unpopped nodes that reached zero, popped (`sorted`) nodes stay at zero, and
every node already emitted was emitted after all its edge sources. -/
structure KahnInv (g : List (Index × List Index)) (deg : List (Index × Nat))
    (stack sorted : List Index) : Prop where
  gkeys : (keysOf g).Nodup
  dkeys : ∀ v, v ∈ keysOf deg ↔ nodeMem g v
  dnodup : (keysOf deg).Nodup
  dval : ∀ v ∈ keysOf deg, alGet deg v = some (pendIn g sorted v)
  snodup : stack.Nodup
  ssub : ∀ v ∈ stack, v ∈ keysOf deg
  sdisj : ∀ v ∈ stack, v ∉ sorted
  szero : ∀ v ∈ stack, pendIn g sorted v = 0
  onodup : sorted.Nodup
  osub : ∀ v ∈ sorted, v ∈ keysOf deg
  ozero : ∀ v ∈ sorted, pendIn g sorted v = 0
  covered : ∀ v ∈ keysOf deg, v ∉ sorted → v ∉ stack → 0 < pendIn g sorted v
  ordered : ∀ u v, edgeL g u v → v ∈ sorted →
    ∃ s1 s2, sorted = s1 ++ v :: s2 ∧ u ∈ s1

/-! ### Concrete addresses used by the scenario theorems -/

def idxA1 : Index := ⟨0, 0⟩

def idxA2 : Index := ⟨0, 1⟩

def idxB1 : Index := ⟨1, 0⟩

def idxB2 : Index := ⟨1, 1⟩

def idxC1 : Index := ⟨2, 0⟩

/-- An edge `u → v` of the graph: `v` occurs in `u`'s adjacency list. -/
def edgeMem (g : DependancyGraph) (u v : Index) : Prop :=
  ∃ l, alGet g.allows_compute u = some l ∧ v ∈ l

/-- The dependency list an edit operation hands to the graph for a cell:
the parsed expression's dependencies, or `[]` for non-expressions. -/
def cellDeps (cell : Cell) : List Index :=
  match cell.parsed_representation with
  | some (Except.ok (ParsedCell.Expr expr)) => expr.dependencies
  | _ => []

/-! ### Lemmas on address rendering and parsing -/

lemma toNat_ofNat_valid {n : Nat} (h : n < 55296) : (Char.ofNat n).toNat = n := by
  have hv : n.isValidChar := Or.inl h
  simp [Char.ofNat, Char.ofNatAux, Char.toNat, hv, UInt32.toNat, BitVec.toNat_ofNat]

lemma isDigit_false_of_ge_65 {c : Char} (h : 65 ≤ c.toNat) : c.isDigit = false := by
  simp only [Char.isDigit]
  by_contra hb
  simp only [Bool.not_eq_false, Bool.and_eq_true, decide_eq_true_eq] at hb
  have h2 : c.val.toNat ≤ 57 := UInt32.toNat_le_of_le (by decide) hb.2
  simp only [Char.toNat] at h
  omega

lemma colChars_mem {x : Nat} : ∀ c ∈ colChars x, 65 ≤ c.toNat ∧ c.toNat ≤ 90 := by
  induction x using Nat.strong_induction_on with
  | _ x ih =>
    intro c hc
    rw [colChars] at hc
    have hm : x % 26 < 26 := Nat.mod_lt _ (by omega)
    by_cases h : x < 26
    · simp only [dif_pos h, List.mem_singleton] at hc
      subst hc
      rw [toNat_ofNat_valid (by omega)]
      omega
    · simp only [dif_neg h, List.mem_append, List.mem_singleton] at hc
      rcases hc with hc | hc
      · have hlt : x / 26 < x := Nat.div_lt_self (by omega) (by omega)
        exact ih (x / 26 - 1) (by omega) c hc
      · subst hc
        rw [toNat_ofNat_valid (by omega)]
        omega

lemma natDigits_ne_nil (n : Nat) : natDigits n ≠ [] := by
  rw [natDigits]
  by_cases h : n < 10
  · simp [h]
  · simp [h]

lemma natDigits_mem {n : Nat} : ∀ c ∈ natDigits n, 48 ≤ c.toNat ∧ c.toNat ≤ 57 := by
  induction n using Nat.strong_induction_on with
  | _ n ih =>
    intro c hc
    rw [natDigits] at hc
    have hm : n % 10 < 10 := Nat.mod_lt _ (by omega)
    by_cases h : n < 10
    · simp only [dif_pos h, List.mem_singleton] at hc
      subst hc
      rw [toNat_ofNat_valid (by omega)]
      omega
    · simp only [dif_neg h, List.mem_append, List.mem_singleton] at hc
      rcases hc with hc | hc
      · have hlt : n / 10 < n := Nat.div_lt_self (by omega) (by omega)
        exact ih (n / 10) hlt c hc
      · subst hc
        rw [toNat_ofNat_valid (by omega)]
        omega

lemma isDigit_of_range {c : Char} (h1 : 48 ≤ c.toNat) (h2 : c.toNat ≤ 57) :
    c.isDigit = true := by
  simp only [Char.isDigit, Bool.and_eq_true, decide_eq_true_eq]
  simp only [Char.toNat, UInt32.toNat] at h1 h2
  constructor
  · rw [ge_iff_le, UInt32.le_def, BitVec.le_def]
    simpa using h1
  · rw [UInt32.le_def, BitVec.le_def]
    simpa using h2

lemma natDigits_foldl (n : Nat) :
    ∀ acc, (natDigits n).foldl (fun a c => a * 10 + (c.toNat - 48)) acc
      = acc * 10 ^ (natDigits n).length + n := by
  induction n using Nat.strong_induction_on with
  | _ n ih =>
    intro acc
    rw [natDigits]
    have hm : n % 10 < 10 := Nat.mod_lt _ (by omega)
    by_cases h : n < 10
    · simp only [dif_pos h, List.foldl_cons, List.foldl_nil, List.length_singleton]
      rw [toNat_ofNat_valid (by omega)]
      omega
    · have hlt : n / 10 < n := Nat.div_lt_self (by omega) (by omega)
      simp only [dif_neg h, List.foldl_append, List.foldl_cons, List.foldl_nil,
        List.length_append, List.length_singleton]
      rw [ih (n / 10) hlt acc, toNat_ofNat_valid (by omega)]
      have hdm : 10 * (n / 10) + n % 10 = n := Nat.div_add_mod n 10
      rw [pow_succ]
      ring_nf
      omega

lemma parseUsize_natDigits (n : Nat) : parseUsize (natDigits n) = some n := by
  unfold parseUsize
  rw [if_pos]
  · rw [natDigits_foldl n 0]
    simp
  · refine ⟨natDigits_ne_nil n, ?_⟩
    rw [List.all_eq_true]
    intro c hc
    have := natDigits_mem c hc
    exact isDigit_of_range this.1 this.2

lemma colChars_foldl (x : Nat) :
    ∀ acc, (colChars x).foldl (fun a c => a * 26 + (c.toNat - 65 + 1)) acc
      = acc * 26 ^ (colChars x).length + (x + 1) := by
  induction x using Nat.strong_induction_on with
  | _ x ih =>
    intro acc
    rw [colChars]
    have hm : x % 26 < 26 := Nat.mod_lt _ (by omega)
    by_cases h : x < 26
    · simp only [dif_pos h, List.foldl_cons, List.foldl_nil, List.length_singleton]
      rw [toNat_ofNat_valid (by omega)]
      omega
    · have hlt : x / 26 < x := Nat.div_lt_self (by omega) (by omega)
      simp only [dif_neg h, List.foldl_append, List.foldl_cons, List.foldl_nil,
        List.length_append, List.length_singleton]
      rw [ih (x / 26 - 1) (by omega) acc, toNat_ofNat_valid (by omega)]
      have hdm : 26 * (x / 26) + x % 26 = x := Nat.div_add_mod x 26
      have h1 : 1 ≤ x / 26 := (Nat.one_le_div_iff (by omega)).mpr (by omega)
      rw [pow_succ]
      ring_nf
      omega

/-- Scanning a block of column letters (codes in `[65, 90]`) just accumulates
the column value and continues on the remainder. -/
lemma get_cell_idxGo_letters (cs : List Char)
    (hcs : ∀ c ∈ cs, 65 ≤ c.toNat ∧ c.toNat ≤ 90) (rest : List Char) :
    ∀ acc, get_cell_idxGo (cs ++ rest) acc
      = get_cell_idxGo rest (cs.foldl (fun a c => a * 26 + (c.toNat - 65 + 1)) acc) := by
  induction cs with
  | nil => intro acc; simp
  | cons c cs ihcs =>
    intro acc
    have hc := hcs c (by simp)
    have hdig : c.isDigit = false := isDigit_false_of_ge_65 hc.1
    simp only [List.cons_append, get_cell_idxGo, hdig, Bool.false_eq_true, if_false,
      List.foldl_cons]
    rw [if_neg (by omega)]
    exact ihcs (fun d hd => hcs d (by simp [hd])) _

/-- Scanning the digit block of a rendered row number parses it back. -/
lemma get_cell_idxGo_digits (n : Nat) (acc : Nat) (hacc : 0 < acc) :
    get_cell_idxGo (natDigits (n + 1)) acc = some ⟨acc - 1, n⟩ := by
  rcases hne : natDigits (n + 1) with _ | ⟨c, rest⟩
  · exact absurd hne (natDigits_ne_nil (n + 1))
  · have hcm : c ∈ natDigits (n + 1) := by rw [hne]; simp
    have hc := natDigits_mem c hcm
    have hdig : c.isDigit = true := isDigit_of_range hc.1 hc.2
    have hparse : parseUsize (c :: rest) = some (n + 1) := by
      rw [← hne]; exact parseUsize_natDigits (n + 1)
    simp only [get_cell_idxGo, hdig, if_true, hparse]
    rw [if_neg (by omega)]
    simp


lemma alGet_eq_none_iff {α : Type} (l : List (Index × α)) (k : Index) :
    alGet l k = none ↔ k ∉ keysOf l := by
  induction l with
  | nil => simp [alGet, keysOf]
  | cons e rest ih =>
    rcases e with ⟨k', v⟩
    simp only [alGet, keysOf, List.map_cons, List.mem_cons]
    by_cases h : k' = k
    · subst h
      simp
    · rw [if_neg h]
      constructor
      · intro hn hmem
        rcases hmem with hmem | hmem
        · exact h hmem.symm
        · exact (ih.mp hn) hmem
      · intro hmem
        exact ih.mpr (fun hk => hmem (Or.inr hk))

lemma alGet_isSome_of_mem {α : Type} {l : List (Index × α)} {k : Index}
    (h : k ∈ keysOf l) : ∃ v, alGet l k = some v := by
  match hg : alGet l k with
  | some v => exact ⟨v, rfl⟩
  | none => exact absurd ((alGet_eq_none_iff l k).mp hg) (by simp [h])

lemma mem_keysOf_of_alGet {α : Type} {l : List (Index × α)} {k : Index} {v : α}
    (h : alGet l k = some v) : k ∈ keysOf l := by
  by_contra hk
  rw [← alGet_eq_none_iff] at hk
  rw [h] at hk
  cases hk

lemma alGet_alSet_self {α : Type} (l : List (Index × α)) (k : Index) (v : α) :
    alGet (alSet l k v) k = some v := by
  induction l with
  | nil => simp [alSet, alGet]
  | cons e rest ih =>
    rcases e with ⟨k', v'⟩
    by_cases h : k' = k
    · simp [alSet, h, alGet]
    · simp [alSet, h, alGet, ih]

lemma alGet_alSet_ne {α : Type} (l : List (Index × α)) (k : Index) (v : α)
    {k' : Index} (h : k' ≠ k) : alGet (alSet l k v) k' = alGet l k' := by
  induction l with
  | nil =>
    simp only [alSet, alGet]
    rw [if_neg (fun he => h he.symm)]
  | cons e rest ih =>
    rcases e with ⟨k0, v0⟩
    by_cases h0 : k0 = k
    · subst h0
      simp only [alSet, if_pos rfl, alGet]
      rw [if_neg (fun he : k0 = k' => h he.symm),
        if_neg (fun he : k0 = k' => h he.symm)]
    · simp only [alSet, if_neg h0, alGet]
      by_cases h1 : k0 = k'
      · simp [h1]
      · simp [h1, ih]

lemma keysOf_alSet_of_mem {α : Type} {l : List (Index × α)} {k : Index}
    (h : k ∈ keysOf l) (v : α) : keysOf (alSet l k v) = keysOf l := by
  induction l with
  | nil => simp [keysOf] at h
  | cons e rest ih =>
    rcases e with ⟨k', v'⟩
    by_cases h0 : k' = k
    · simp [alSet, h0, keysOf]
    · have hk : k ∈ keysOf rest := by
        simp [keysOf] at h
        rcases h with h | h
        · exact absurd h.symm h0
        · simpa [keysOf] using h
      have hih := ih hk
      simp only [keysOf] at hih
      simp [alSet, h0, keysOf, hih]

lemma pendIn_cons (e : Index × List Index) (g : List (Index × List Index))
    (popped : List Index) (v : Index) :
    pendIn (e :: g) popped v = entryCount popped v e + pendIn g popped v := by
  simp [pendIn]

lemma pendIn_append (g1 g2 : List (Index × List Index)) (popped : List Index)
    (v : Index) :
    pendIn (g1 ++ g2) popped v = pendIn g1 popped v + pendIn g2 popped v := by
  simp [pendIn]

lemma entryCount_extend_ne {popped : List Index} {node : Index}
    (e : Index × List Index) (h : e.1 ≠ node) (v : Index) :
    entryCount (popped ++ [node]) v e = entryCount popped v e := by
  unfold entryCount
  by_cases hm : e.1 ∈ popped
  · simp [hm]
  · have : e.1 ∉ popped ++ [node] := by
      simp [hm, h]
    simp [hm, this]

lemma entryCount_extend_le (popped : List Index) (node : Index)
    (e : Index × List Index) (v : Index) :
    entryCount (popped ++ [node]) v e ≤ entryCount popped v e := by
  unfold entryCount
  by_cases hm : e.1 ∈ popped
  · simp [hm]
  · by_cases hm' : e.1 ∈ popped ++ [node] <;> simp [hm, hm']

lemma pendIn_extend_not_mem {g : List (Index × List Index)} {node : Index}
    (h : ∀ e ∈ g, e.1 ≠ node) (popped : List Index) (v : Index) :
    pendIn g (popped ++ [node]) v = pendIn g popped v := by
  induction g with
  | nil => rfl
  | cons e rest ih =>
    rw [pendIn_cons, pendIn_cons, entryCount_extend_ne e (h e (by simp)) v,
      ih (fun e' he' => h e' (by simp [he']))]

lemma pendIn_extend_le (g : List (Index × List Index)) (popped : List Index)
    (node v : Index) :
    pendIn g (popped ++ [node]) v ≤ pendIn g popped v := by
  induction g with
  | nil => exact le_refl _
  | cons e rest ih =>
    rw [pendIn_cons, pendIn_cons]
    exact Nat.add_le_add (entryCount_extend_le popped node e v) ih

/-- Popping an unpopped node removes exactly its own adjacency
contribution from the pending in-degree (when keys are unique). -/
lemma pendIn_extend (g : List (Index × List Index)) (popped : List Index)
    (node v : Index) (hnd : (keysOf g).Nodup) (hnp : node ∉ popped) :
    ((alGet g node).getD []).count v ≤ pendIn g popped v ∧
    pendIn g (popped ++ [node]) v
      = pendIn g popped v - ((alGet g node).getD []).count v := by
  induction g with
  | nil => simp [pendIn, alGet]
  | cons e rest ih =>
    rcases e with ⟨k, adj⟩
    have hnd' : (keysOf rest).Nodup := by
      simpa [keysOf] using hnd.of_cons
    by_cases hk : k = node
    · subst hk
      have hrest : ∀ e' ∈ rest, e'.1 ≠ k := by
        intro e' he'
        have := hnd
        simp only [keysOf, List.map_cons, List.nodup_cons] at this
        intro hcontra
        exact this.1 (hcontra ▸ (List.mem_map_of_mem Prod.fst he'))
      rw [pendIn_cons, pendIn_cons, pendIn_extend_not_mem hrest]
      have hga : alGet ((k, adj) :: rest) k = some adj := by
        simp [alGet]
      rw [hga]
      simp only [Option.getD_some]
      have h1 : entryCount popped v (k, adj) = adj.count v := by
        unfold entryCount
        simp [hnp]
      have h2 : entryCount (popped ++ [k]) v (k, adj) = 0 := by
        unfold entryCount
        simp
      rw [h1, h2]
      omega
    · rw [pendIn_cons, pendIn_cons,
        entryCount_extend_ne (k, adj) (by simpa using hk) v]
      have halg : alGet ((k, adj) :: rest) node = alGet rest node := by
        simp [alGet, hk]
      rw [halg]
      have := ih hnd'
      omega

/-- A positive pending in-degree is the same as an edge from an unpopped
source. -/
lemma pendIn_pos_iff (g : List (Index × List Index)) (popped : List Index)
    (v : Index) :
    0 < pendIn g popped v ↔ ∃ e ∈ g, e.1 ∉ popped ∧ v ∈ e.2 := by
  induction g with
  | nil => simp [pendIn]
  | cons e rest ih =>
    rw [pendIn_cons]
    constructor
    · intro h
      by_cases h0 : 0 < entryCount popped v e
      · unfold entryCount at h0
        by_cases hm : e.1 ∈ popped
        · simp [hm] at h0
        · exact ⟨e, by simp, hm, List.count_pos_iff.mp (by simpa [hm] using h0)⟩
      · have : 0 < pendIn rest popped v := by omega
        obtain ⟨e', he', hp, hv⟩ := ih.mp this
        exact ⟨e', by simp [he'], hp, hv⟩
    · rintro ⟨e', he', hp, hv⟩
      rcases List.mem_cons.mp he' with rfl | he'
      · have : 0 < entryCount popped v e' := by
          unfold entryCount
          simpa [hp] using List.count_pos_iff.mpr hv
        omega
      · have : 0 < pendIn rest popped v := ih.mpr ⟨e', he', hp, hv⟩
        omega


lemma alGet_append {α : Type} (l1 l2 : List (Index × α)) (k : Index) :
    alGet (l1 ++ l2) k =
      match alGet l1 k with
      | some v => some v
      | none => alGet l2 k := by
  induction l1 with
  | nil => rfl
  | cons e rest ih =>
    rcases e with ⟨k', v⟩
    by_cases h : k' = k
    · simp [alGet, h]
    · simp [alGet, h, ih]

lemma alGet_degBump (deg : List (Index × Nat)) (d v : Index) :
    alGet (degBump deg d) v =
      if v = d then some ((alGet deg d).getD 0 + 1) else alGet deg v := by
  unfold degBump
  match hg : alGet deg d with
  | some n =>
    by_cases h : v = d
    · subst h
      rw [if_pos rfl, alGet_alSet_self]
      rfl
    · rw [if_neg h, alGet_alSet_ne _ _ _ h]
  | none =>
    by_cases h : v = d
    · subst h
      rw [if_pos rfl, alGet_append, hg]
      simp [alGet]
    · rw [if_neg h, alGet_append]
      have hvd : alGet [(d, 1)] v = none := by
        simp only [alGet]
        rw [if_neg (fun hdv => h hdv.symm)]
      match hv : alGet deg v with
      | some m => rfl
      | none => simpa using hvd

lemma keysOf_degBump (deg : List (Index × Nat)) (d : Index) :
    keysOf (degBump deg d)
      = if d ∈ keysOf deg then keysOf deg else keysOf deg ++ [d] := by
  unfold degBump
  match hg : alGet deg d with
  | some n =>
    rw [if_pos (mem_keysOf_of_alGet hg)]
    exact keysOf_alSet_of_mem (mem_keysOf_of_alGet hg) _
  | none =>
    rw [if_neg ((alGet_eq_none_iff deg d).mp hg)]
    simp [keysOf]

lemma alGet_degEnsure (deg : List (Index × Nat)) (k v : Index) :
    alGet (degEnsure deg k) v =
      if v = k then some ((alGet deg k).getD 0) else alGet deg v := by
  unfold degEnsure
  match hg : alGet deg k with
  | some n =>
    by_cases h : v = k
    · subst h
      rw [if_pos rfl, hg]
      rfl
    · rw [if_neg h]
  | none =>
    by_cases h : v = k
    · subst h
      rw [if_pos rfl, alGet_append, hg]
      simp [alGet]
    · rw [if_neg h, alGet_append]
      have hvd : alGet [(k, 0)] v = none := by
        simp only [alGet]
        rw [if_neg (fun hkv => h hkv.symm)]
      match hv : alGet deg v with
      | some m => rfl
      | none => simpa using hvd

lemma keysOf_degEnsure (deg : List (Index × Nat)) (k : Index) :
    keysOf (degEnsure deg k)
      = if k ∈ keysOf deg then keysOf deg else keysOf deg ++ [k] := by
  unfold degEnsure
  match hg : alGet deg k with
  | some n =>
    rw [if_pos (mem_keysOf_of_alGet hg)]
  | none =>
    rw [if_neg ((alGet_eq_none_iff deg k).mp hg)]
    simp [keysOf]

lemma nodup_append_singleton {l : List Index} {d : Index}
    (hnd : l.Nodup) (hd : d ∉ l) : (l ++ [d]).Nodup := by
  simp [List.nodup_append, hnd, hd]

lemma nodup_keysOf_degBump {deg : List (Index × Nat)} (d : Index)
    (hnd : (keysOf deg).Nodup) : (keysOf (degBump deg d)).Nodup := by
  rw [keysOf_degBump]
  by_cases h : d ∈ keysOf deg
  · rwa [if_pos h]
  · rw [if_neg h]
    exact nodup_append_singleton hnd h

lemma nodup_keysOf_degEnsure {deg : List (Index × Nat)} (k : Index)
    (hnd : (keysOf deg).Nodup) : (keysOf (degEnsure deg k)).Nodup := by
  rw [keysOf_degEnsure]
  by_cases h : k ∈ keysOf deg
  · rwa [if_pos h]
  · rw [if_neg h]
    exact nodup_append_singleton hnd h

lemma foldl_degBump_alGet (l : List Index) :
    ∀ (deg : List (Index × Nat)) (v : Index),
    alGet (l.foldl degBump deg) v =
      match alGet deg v with
      | some n => some (n + l.count v)
      | none => if v ∈ l then some (l.count v) else none := by
  induction l with
  | nil =>
    intro deg v
    match hv : alGet deg v with
    | some n => simp
    | none => simp
  | cons d rest ih =>
    intro deg v
    rw [List.foldl_cons, ih (degBump deg d) v, alGet_degBump]
    by_cases h : v = d
    · subst h
      rw [if_pos rfl]
      match hv : alGet deg v with
      | some n => simp [List.count_cons, hv]; omega
      | none => simp [List.count_cons, hv]; omega
    · rw [if_neg h]
      match hv : alGet deg v with
      | some n => simp [List.count_cons, h]
      | none => simp [List.count_cons, List.mem_cons, h]

lemma foldl_degBump_keys_mem (l : List Index) :
    ∀ (deg : List (Index × Nat)) (v : Index),
    v ∈ keysOf (l.foldl degBump deg) ↔ v ∈ keysOf deg ∨ v ∈ l := by
  induction l with
  | nil => intro deg v; simp
  | cons d rest ih =>
    intro deg v
    rw [List.foldl_cons, ih (degBump deg d) v, keysOf_degBump]
    by_cases h : d ∈ keysOf deg
    · rw [if_pos h]
      constructor
      · rintro (hv | hv)
        · exact Or.inl hv
        · exact Or.inr (by simp [hv])
      · rintro (hv | hv)
        · exact Or.inl hv
        · rcases List.mem_cons.mp hv with rfl | hv
          · exact Or.inl h
          · exact Or.inr hv
    · rw [if_neg h]
      simp only [List.mem_append, List.mem_singleton, List.mem_cons]
      tauto

lemma foldl_degBump_nodup (l : List Index) :
    ∀ (deg : List (Index × Nat)), (keysOf deg).Nodup →
    (keysOf (l.foldl degBump deg)).Nodup := by
  induction l with
  | nil => intro deg h; exact h
  | cons d rest ih =>
    intro deg h
    exact ih (degBump deg d) (nodup_keysOf_degBump d h)

/-- The full correctness of the in-degree build phase: keys are the node
universe without duplicates, and each key's value is its initial in-degree
`pendIn g [] v`. -/
lemma buildInDegree_spec (g : List (Index × List Index)) :
    (keysOf (buildInDegree g)).Nodup ∧
    (∀ v, v ∈ keysOf (buildInDegree g) ↔ nodeMem g v) ∧
    (∀ v, nodeMem g v → alGet (buildInDegree g) v = some (pendIn g [] v)) := by
  suffices h : ∀ (gs : List (Index × List Index)) (deg : List (Index × Nat)),
      (keysOf deg).Nodup →
      (keysOf (gs.foldl (fun deg e => e.2.foldl degBump (degEnsure deg e.1)) deg)).Nodup ∧
      (∀ v, v ∈ keysOf (gs.foldl (fun deg e => e.2.foldl degBump (degEnsure deg e.1)) deg)
        ↔ v ∈ keysOf deg ∨ nodeMem gs v) ∧
      (∀ v n, alGet deg v = some n →
        alGet (gs.foldl (fun deg e => e.2.foldl degBump (degEnsure deg e.1)) deg) v
          = some (n + pendIn gs [] v)) ∧
      (∀ v, alGet deg v = none → nodeMem gs v →
        alGet (gs.foldl (fun deg e => e.2.foldl degBump (degEnsure deg e.1)) deg) v
          = some (pendIn gs [] v)) by
    obtain ⟨h1, h2, h3, h4⟩ := h g [] (by simp [keysOf])
    refine ⟨h1, ?_, ?_⟩
    · intro v
      unfold buildInDegree
      rw [h2 v]
      simp [keysOf, alGet]
    · intro v hv
      unfold buildInDegree
      exact h4 v rfl hv
  intro gs
  induction gs with
  | nil =>
    intro deg hnd
    refine ⟨hnd, ?_, ?_, ?_⟩
    · intro v; simp [nodeMem, keysOf]
    · intro v n h; simp [pendIn, h]
    · intro v h hm
      rcases hm with hm | ⟨e, he, _⟩
      · simp [keysOf] at hm
      · simp at he
  | cons e rest ih =>
    intro deg hnd
    have hnd1 : (keysOf (e.2.foldl degBump (degEnsure deg e.1))).Nodup :=
      foldl_degBump_nodup e.2 _ (nodup_keysOf_degEnsure e.1 hnd)
    obtain ⟨ih1, ih2, ih3, ih4⟩ := ih (e.2.foldl degBump (degEnsure deg e.1)) hnd1
    have hstep : ∀ v, alGet (e.2.foldl degBump (degEnsure deg e.1)) v =
        match (if v = e.1 then some ((alGet deg e.1).getD 0) else alGet deg v) with
        | some n => some (n + e.2.count v)
        | none => if v ∈ e.2 then some (e.2.count v) else none := by
      intro v
      rw [foldl_degBump_alGet e.2 _ v, alGet_degEnsure]
    have hpend : ∀ v, pendIn (e :: rest) [] v = e.2.count v + pendIn rest [] v := by
      intro v
      rw [pendIn_cons]
      simp [entryCount]
    refine ⟨ih1, ?_, ?_, ?_⟩
    · intro v
      rw [List.foldl_cons, ih2 v, foldl_degBump_keys_mem, keysOf_degEnsure]
      by_cases hke : e.1 ∈ keysOf deg
      · rw [if_pos hke]
        unfold nodeMem keysOf at hke ⊢
        simp only [List.map_cons, List.mem_cons, List.mem_map, List.mem_append,
          List.mem_singleton]
        constructor
        · intro hv
          aesop
        · intro hv
          aesop
      · rw [if_neg hke]
        unfold nodeMem keysOf
        simp only [List.map_cons, List.mem_cons, List.mem_map, List.mem_append,
          List.mem_singleton]
        constructor
        · intro hv
          aesop
        · intro hv
          aesop
    · intro v n hvn
      rw [List.foldl_cons]
      have hstep' : alGet (e.2.foldl degBump (degEnsure deg e.1)) v
          = some (n + e.2.count v) := by
        rw [hstep v]
        by_cases hv : v = e.1
        · rw [if_pos hv, ← hv, hvn]
          rfl
        · rw [if_neg hv, hvn]
      rw [ih3 v _ hstep', hpend v]
      simp only [Nat.add_assoc]
    · intro v hvn hm
      rw [List.foldl_cons]
      by_cases hv : v = e.1
      · have hstep' : alGet (e.2.foldl degBump (degEnsure deg e.1)) v
            = some (e.2.count v) := by
          rw [hstep v, if_pos hv, ← hv, hvn]
          simp
        rw [ih3 v _ hstep', hpend v]
      · by_cases hve : v ∈ e.2
        · have hstep' : alGet (e.2.foldl degBump (degEnsure deg e.1)) v
              = some (e.2.count v) := by
            rw [hstep v, if_neg hv, hvn]
            simp [hve]
          rw [ih3 v _ hstep', hpend v]
        · have hnone : alGet (e.2.foldl degBump (degEnsure deg e.1)) v = none := by
            rw [hstep v, if_neg hv, hvn]
            simp [hve]
          have hm' : nodeMem rest v := by
            rcases hm with hm | ⟨e', he', hv'⟩
            · unfold keysOf at hm
              simp only [List.map_cons, List.mem_cons] at hm
              rcases hm with h1 | h1
              · exact absurd h1 hv
              · exact Or.inl (by unfold keysOf; exact h1)
            · rcases List.mem_cons.mp he' with rfl | he'
              · exact absurd hv' hve
              · exact Or.inr ⟨e', he', hv'⟩
          have hzero : e.2.count v = 0 := by
            rw [List.count_eq_zero]
            exact hve
          rw [ih4 v hnone hm', hpend v, hzero]
          simp

lemma alGet_some_mem {α : Type} {l : List (Index × α)} {k : Index} {v : α}
    (h : alGet l k = some v) : (k, v) ∈ l := by
  induction l with
  | nil => simp [alGet] at h
  | cons e rest ih =>
    rcases e with ⟨k', v'⟩
    by_cases hk : k' = k
    · subst hk
      simp [alGet] at h
      subst h
      simp
    · simp only [alGet, if_neg hk] at h
      exact List.mem_cons_of_mem _ (ih h)

lemma alGet_of_mem_nodup {α : Type} {l : List (Index × α)} {e : Index × α}
    (hnd : (keysOf l).Nodup) (he : e ∈ l) : alGet l e.1 = some e.2 := by
  induction l with
  | nil => simp at he
  | cons e' rest ih =>
    rcases List.mem_cons.mp he with rfl | he
    · simp [alGet]
    · have hne : e'.1 ≠ e.1 := by
        intro hcontra
        have : e'.1 ∈ keysOf rest := by
          rw [hcontra]
          exact List.mem_map_of_mem Prod.fst he
        simp only [keysOf, List.map_cons, List.nodup_cons] at hnd
        exact hnd.1 this
      simp only [alGet, if_neg hne]
      exact ih (by simpa [keysOf] using hnd.of_cons) he

lemma pendIn_le_nil (g : List (Index × List Index)) (popped : List Index)
    (v : Index) : pendIn g popped v ≤ pendIn g [] v := by
  induction g with
  | nil => simp [pendIn]
  | cons e rest ih =>
    rw [pendIn_cons, pendIn_cons]
    have : entryCount popped v e ≤ entryCount [] v e := by
      unfold entryCount
      by_cases hm : e.1 ∈ popped <;> simp [hm]
    exact Nat.add_le_add this ih

lemma mem_filter_map_keys {l : List (Index × Nat)} (hnd : (keysOf l).Nodup)
    (v : Index) :
    v ∈ (l.filter (fun e => 0 < e.2)).map Prod.fst
      ↔ ∃ n, alGet l v = some n ∧ 0 < n := by
  constructor
  · intro h
    obtain ⟨e, he, hfst⟩ := List.mem_map.mp h
    have hmem := List.mem_filter.mp he
    refine ⟨e.2, ?_, by simpa using hmem.2⟩
    rw [← hfst]
    exact alGet_of_mem_nodup hnd hmem.1
  · rintro ⟨n, hn, hpos⟩
    refine List.mem_map.mpr ⟨(v, n), List.mem_filter.mpr ⟨alGet_some_mem hn, by simpa⟩, rfl⟩

/-- The full specification of the decrement fold in the Kahn loop:
keys are preserved, the in-degree of every node drops by its multiplicity in
the processed adjacency list, and the nodes pushed onto the stack are
exactly those that were decremented down to zero. -/
lemma kahnProcess_spec (deps : List Index) :
    ∀ (deg : List (Index × Nat)) (stk : List Index),
    (keysOf deg).Nodup →
    (∀ d ∈ deps, d ∈ keysOf deg) →
    (∀ v n, alGet deg v = some n → deps.count v ≤ n) →
    keysOf (kahnProcess deps (deg, stk)).1 = keysOf deg ∧
    (∀ v n, alGet deg v = some n →
      alGet (kahnProcess deps (deg, stk)).1 v = some (n - deps.count v)) ∧
    (∀ x, x ∈ (kahnProcess deps (deg, stk)).2 ↔
      x ∈ stk ∨ (0 < deps.count x ∧ alGet (kahnProcess deps (deg, stk)).1 x = some 0)) ∧
    ((∀ y ∈ stk, deps.count y = 0) → stk.Nodup →
      (kahnProcess deps (deg, stk)).2.Nodup) := by
  induction deps with
  | nil =>
    intro deg stk hnd hmem hle
    refine ⟨rfl, ?_, ?_, ?_⟩
    · intro v n h
      simpa [kahnProcess] using h
    · intro x
      simp [kahnProcess]
    · intro _ h
      exact h
  | cons d rest ih =>
    intro deg stk hnd hmem hle
    have hd : d ∈ keysOf deg := hmem d (by simp)
    obtain ⟨n, hn⟩ := alGet_isSome_of_mem hd
    have hcnt : rest.count d + 1 ≤ n := by
      have := hle d n hn
      simp [List.count_cons] at this
      omega
    have hstep : kahnProcess (d :: rest) (deg, stk)
        = kahnProcess rest
            (alSet deg d (n - 1), if n - 1 = 0 then d :: stk else stk) := by
      unfold kahnProcess
      simp [hn]
    have hkeys1 : keysOf (alSet deg d (n - 1)) = keysOf deg :=
      keysOf_alSet_of_mem hd _
    have hnd1 : (keysOf (alSet deg d (n - 1))).Nodup := by
      rwa [hkeys1]
    have hmem1 : ∀ x ∈ rest, x ∈ keysOf (alSet deg d (n - 1)) := by
      intro x hx
      rw [hkeys1]
      exact hmem x (by simp [hx])
    have hle1 : ∀ v m, alGet (alSet deg d (n - 1)) v = some m →
        rest.count v ≤ m := by
      intro v m hv
      by_cases hvd : v = d
      · subst hvd
        rw [alGet_alSet_self] at hv
        have : m = n - 1 := by simpa using hv.symm
        omega
      · rw [alGet_alSet_ne _ _ _ hvd] at hv
        have := hle v m hv
        have hc : (d :: rest).count v = rest.count v := by
          simp [List.count_cons, fun h => hvd h]
        omega
    set stk1 := if n - 1 = 0 then d :: stk else stk with hstk1
    obtain ⟨ih1, ih2, ih3, ih4⟩ := ih (alSet deg d (n - 1)) stk1 hnd1 hmem1 hle1
    have hveq : ∀ v m, alGet deg v = some m →
        alGet (kahnProcess rest (alSet deg d (n - 1), stk1)).1 v
          = some (m - (d :: rest).count v) := by
      intro v m hv
      by_cases hvd : v = d
      · subst hvd
        have : alGet (alSet deg v (n - 1)) v = some (n - 1) := alGet_alSet_self _ _ _
        rw [ih2 v (n - 1) this]
        have hm : m = n := by
          rw [hv] at hn
          simpa using hn
        subst hm
        rw [Option.some_inj]
        have hcc : (v :: rest).count v = rest.count v + 1 := by simp
        omega
      · have : alGet (alSet deg d (n - 1)) v = some m := by
          rw [alGet_alSet_ne _ _ _ hvd]
          exact hv
        rw [ih2 v m this]
        have hc : (d :: rest).count v = rest.count v := by
          simp [List.count_cons, fun h => hvd h]
        rw [hc]
    refine ⟨?_, ?_, ?_, ?_⟩
    · rw [hstep, ih1, hkeys1]
    · intro v m hv
      rw [hstep]
      exact hveq v m hv
    · intro x
      rw [hstep, ih3 x]
      have hrestd : rest.count d = 0 → True := fun _ => trivial
      constructor
      · rintro (hx | ⟨hpos, hzero⟩)
        · rw [hstk1] at hx
          by_cases h0 : n - 1 = 0
          · rw [if_pos h0] at hx
            rcases List.mem_cons.mp hx with hxd | hx
            · refine Or.inr ⟨?_, ?_⟩
              · rw [hxd]
                simp [List.count_cons]
              · have hsome : alGet (alSet deg d (n - 1)) x = some (n - 1) := by
                  rw [hxd]
                  exact alGet_alSet_self _ _ _
                rw [ih2 x (n - 1) hsome]
                have hr0 : rest.count x = 0 := by
                  rw [hxd]
                  omega
                rw [hr0, Nat.sub_zero, h0]
            · exact Or.inl hx
          · rw [if_neg h0] at hx
            exact Or.inl hx
        · refine Or.inr ⟨?_, hzero⟩
          have hle2 : rest.count x ≤ (d :: rest).count x := by
            rw [List.count_cons]
            exact Nat.le_add_right _ _
          omega
      · rintro (hx | ⟨hpos, hzero⟩)
        · left
          rw [hstk1]
          by_cases h0 : n - 1 = 0
          · rw [if_pos h0]
            exact List.mem_cons_of_mem _ hx
          · rw [if_neg h0]
            exact hx
        · by_cases hxd : x = d
          · subst hxd
            have hfin : alGet (kahnProcess rest (alSet deg x (n - 1), stk1)).1 x
                = some (n - 1 - rest.count x) :=
              ih2 x (n - 1) (alGet_alSet_self _ _ _)
            by_cases hrpos : 0 < rest.count x
            · exact Or.inr ⟨hrpos, hzero⟩
            · left
              rw [hstk1]
              have hr0 : rest.count x = 0 := by omega
              have h10 : n - 1 = 0 := by
                rw [hfin] at hzero
                simp only [Option.some_inj] at hzero
                omega
              rw [if_pos h10]
              simp
          · have hc : 0 < rest.count x := by
              have : (d :: rest).count x = rest.count x := by
                simp [List.count_cons, fun h => hxd h]
              omega
            exact Or.inr ⟨hc, hzero⟩
    · intro hall hstknd
      rw [hstep]
      apply ih4
      · intro y hy
        rw [hstk1] at hy
        by_cases h0 : n - 1 = 0
        · rw [if_pos h0] at hy
          rcases List.mem_cons.mp hy with rfl | hy
          · omega
          · have := hall y hy
            simp [List.count_cons] at this
            omega
        · rw [if_neg h0] at hy
          have := hall y hy
          simp [List.count_cons] at this
          omega
      · rw [hstk1]
        by_cases h0 : n - 1 = 0
        · rw [if_pos h0]
          refine List.nodup_cons.mpr ⟨?_, hstknd⟩
          intro hd2
          have := hall d hd2
          simp [List.count_cons] at this
        · rw [if_neg h0]
          exact hstknd


lemma sources_sorted_of_pend_zero {g : List (Index × List Index)}
    {sorted : List Index} {node : Index} (hz : pendIn g sorted node = 0) :
    ∀ u, edgeL g u node → u ∈ sorted := by
  rintro u ⟨l, hl, hm⟩
  by_contra hu
  have : 0 < pendIn g sorted node :=
    (pendIn_pos_iff g sorted node).mpr ⟨(u, l), alGet_some_mem hl, hu, hm⟩
  omega

lemma ordered_extend {g : List (Index × List Index)} {sorted : List Index}
    {node : Index}
    (hord : ∀ u v, edgeL g u v → v ∈ sorted →
      ∃ s1 s2, sorted = s1 ++ v :: s2 ∧ u ∈ s1)
    (hz : pendIn g sorted node = 0) :
    ∀ u v, edgeL g u v → v ∈ sorted ++ [node] →
      ∃ s1 s2, sorted ++ [node] = s1 ++ v :: s2 ∧ u ∈ s1 := by
  intro u v he hv
  rcases List.mem_append.mp hv with hv | hv
  · obtain ⟨s1, s2, hs, hu⟩ := hord u v he hv
    exact ⟨s1, s2 ++ [node], by rw [hs]; simp, hu⟩
  · have hvn : v = node := by simpa using hv
    subst hvn
    exact ⟨sorted, [], rfl, sources_sorted_of_pend_zero hz u he⟩

/-- Popping a node with no adjacency entry preserves the invariant. -/
lemma kahnInv_step_none {g : List (Index × List Index)}
    {deg : List (Index × Nat)} {stack sorted : List Index} {node : Index}
    (hinv : KahnInv g deg (node :: stack) sorted)
    (hnone : alGet g node = none) :
    KahnInv g deg stack (sorted ++ [node]) := by
  have hnode_keys : node ∈ keysOf deg := hinv.ssub node (by simp)
  have hnode_nsort : node ∉ sorted := hinv.sdisj node (by simp)
  have hnode_zero : pendIn g sorted node = 0 := hinv.szero node (by simp)
  have hpend_eq : ∀ v, pendIn g (sorted ++ [node]) v = pendIn g sorted v := by
    intro v
    have h := pendIn_extend g sorted node v hinv.gkeys hnode_nsort
    rw [hnone] at h
    simpa using h.2
  refine ⟨hinv.gkeys, hinv.dkeys, hinv.dnodup, ?_, hinv.snodup.of_cons, ?_, ?_, ?_,
    ?_, ?_, ?_, ?_, ?_⟩
  · intro v hv
    rw [hpend_eq v]
    exact hinv.dval v hv
  · intro v hv
    exact hinv.ssub v (by simp [hv])
  · intro v hv
    have hvs : v ∉ sorted := hinv.sdisj v (by simp [hv])
    have hvn : v ≠ node := by
      intro h
      subst h
      exact (List.nodup_cons.mp hinv.snodup).1 hv
    simp [hvs, hvn]
  · intro v hv
    rw [hpend_eq v]
    exact hinv.szero v (by simp [hv])
  · exact nodup_append_singleton hinv.onodup hnode_nsort
  · intro v hv
    rcases List.mem_append.mp hv with hv | hv
    · exact hinv.osub v hv
    · simp at hv
      subst hv
      exact hnode_keys
  · intro v hv
    rw [hpend_eq v]
    rcases List.mem_append.mp hv with hv | hv
    · exact hinv.ozero v hv
    · simp at hv
      subst hv
      exact hnode_zero
  · intro v hv hvs hvk
    rw [hpend_eq v]
    have hvs1 : v ∉ sorted := fun h => hvs (by simp [h])
    have hvn : v ≠ node := fun h => hvs (by simp [h])
    have hvk1 : v ∉ node :: stack := by
      simp [hvn, hvk]
    exact hinv.covered v hv hvs1 hvk1
  · exact ordered_extend hinv.ordered hnode_zero

/-- Popping a node with an adjacency list and running the decrement fold
preserves the invariant. -/
lemma kahnInv_step_some {g : List (Index × List Index)}
    {deg : List (Index × Nat)} {stack sorted : List Index} {node : Index}
    {adj : List Index}
    (hinv : KahnInv g deg (node :: stack) sorted)
    (hadj : alGet g node = some adj) :
    KahnInv g (kahnProcess adj (deg, stack)).1 (kahnProcess adj (deg, stack)).2
      (sorted ++ [node])
    ∧ keysOf (kahnProcess adj (deg, stack)).1 = keysOf deg := by
  have hnode_keys : node ∈ keysOf deg := hinv.ssub node (by simp)
  have hnode_nsort : node ∉ sorted := hinv.sdisj node (by simp)
  have hnode_zero : pendIn g sorted node = 0 := hinv.szero node (by simp)
  have hadjcount : ∀ v, ((alGet g node).getD []).count v = adj.count v := by
    intro v
    rw [hadj]
    rfl
  have hpend : ∀ v, adj.count v ≤ pendIn g sorted v ∧
      pendIn g (sorted ++ [node]) v = pendIn g sorted v - adj.count v := by
    intro v
    have h := pendIn_extend g sorted node v hinv.gkeys hnode_nsort
    rw [hadjcount v] at h
    exact h
  have hadjmem : ∀ d ∈ adj, d ∈ keysOf deg := by
    intro d hd
    rw [hinv.dkeys d]
    exact Or.inr ⟨(node, adj), alGet_some_mem hadj, hd⟩
  have hcnt : ∀ v n, alGet deg v = some n → adj.count v ≤ n := by
    intro v n hv
    have hvk := mem_keysOf_of_alGet hv
    have := hinv.dval v hvk
    rw [hv] at this
    have hn : n = pendIn g sorted v := by simpa using this
    rw [hn]
    exact (hpend v).1
  obtain ⟨hk1, hk2, hk3, hk4⟩ :=
    kahnProcess_spec adj deg stack hinv.dnodup hadjmem hcnt
  have hstkadj : ∀ y ∈ stack, adj.count y = 0 := by
    intro y hy
    have hyz : pendIn g sorted y = 0 := hinv.szero y (by simp [hy])
    have := (hpend y).1
    omega
  have hdval' : ∀ v ∈ keysOf deg,
      alGet (kahnProcess adj (deg, stack)).1 v
        = some (pendIn g (sorted ++ [node]) v) := by
    intro v hv
    have h1 := hinv.dval v hv
    rw [hk2 v _ h1, (hpend v).2]
  have hszero' : ∀ v ∈ (kahnProcess adj (deg, stack)).2,
      pendIn g (sorted ++ [node]) v = 0 := by
    intro v hv
    rcases (hk3 v).mp hv with hv | ⟨hpos, hzero⟩
    · have h0 : pendIn g sorted v = 0 := hinv.szero v (by simp [hv])
      have := (hpend v).2
      omega
    · have hvk : v ∈ keysOf deg := hadjmem v (List.count_pos_iff.mp hpos)
      have := hdval' v hvk
      rw [hzero] at this
      simpa using this.symm
  have hssub' : ∀ v ∈ (kahnProcess adj (deg, stack)).2, v ∈ keysOf deg := by
    intro v hv
    rcases (hk3 v).mp hv with hv | ⟨hpos, _⟩
    · exact hinv.ssub v (by simp [hv])
    · exact hadjmem v (List.count_pos_iff.mp hpos)
  have hsdisj' : ∀ v ∈ (kahnProcess adj (deg, stack)).2, v ∉ sorted ++ [node] := by
    intro v hv
    rcases (hk3 v).mp hv with hvs | ⟨hpos, hzero⟩
    · have h1 : v ∉ sorted := hinv.sdisj v (by simp [hvs])
      have h2 : v ≠ node := by
        intro h
        subst h
        exact (List.nodup_cons.mp hinv.snodup).1 hvs
      simp [h1, h2]
    · have hcount_le := (hpend v).1
      have hppos : 0 < pendIn g sorted v := by omega
      have h1 : v ∉ sorted := by
        intro h
        have := hinv.ozero v h
        omega
      have h2 : v ≠ node := by
        intro h
        subst h
        omega
      simp [h1, h2]
  refine ⟨⟨hinv.gkeys, ?_, ?_, ?_, ?_, ?_, hsdisj', hszero', ?_, ?_, ?_, ?_, ?_⟩, hk1⟩
  · intro v
    rw [hk1]
    exact hinv.dkeys v
  · rw [hk1]
    exact hinv.dnodup
  · intro v hv
    rw [hk1] at hv
    exact hdval' v hv
  · exact hk4 hstkadj hinv.snodup.of_cons
  · intro v hv
    rw [hk1]
    exact hssub' v hv
  · exact nodup_append_singleton hinv.onodup hnode_nsort
  · intro v hv
    rw [hk1]
    rcases List.mem_append.mp hv with hv | hv
    · exact hinv.osub v hv
    · simp at hv
      subst hv
      exact hnode_keys
  · intro v hv
    rcases List.mem_append.mp hv with hv | hv
    · have h0 := hinv.ozero v hv
      have := (hpend v).2
      omega
    · simp at hv
      subst hv
      have := (hpend v).2
      omega
  · intro v hv hvs hvk
    rw [hk1] at hv
    have hvs1 : v ∉ sorted := fun h => hvs (by simp [h])
    have hvn : v ≠ node := fun h => hvs (by simp [h])
    by_cases hz : pendIn g (sorted ++ [node]) v = 0
    · exfalso
      by_cases hc : 0 < adj.count v
      · apply hvk
        rw [hk3 v]
        refine Or.inr ⟨hc, ?_⟩
        rw [hdval' v hv, hz]
      · have hc0 : adj.count v = 0 := by omega
        have hps : pendIn g sorted v = 0 := by
          have := (hpend v).2
          omega
        have hvk1 : v ∈ node :: stack := by
          by_contra hvk1
          have := hinv.covered v hv hvs1 hvk1
          omega
        rcases List.mem_cons.mp hvk1 with h | h
        · exact hvn h
        · exact hvk ((hk3 v).mpr (Or.inl h))
    · omega
  · exact ordered_extend hinv.ordered hnode_zero

/-- The invariant holds at the start of the Kahn loop: the in-degree map from
the build phase, the reversed zero-degree list as stack, nothing sorted. -/
lemma kahnInv_init (g : List (Index × List Index))
    (hg : (keysOf g).Nodup) :
    KahnInv g (buildInDegree g)
      (((buildInDegree g).filter (fun e => e.2 = 0)).map Prod.fst).reverse
      [] := by
  obtain ⟨hnd, hkeys, hval⟩ := buildInDegree_spec g
  have hstack : ∀ v,
      v ∈ (((buildInDegree g).filter (fun e => e.2 = 0)).map Prod.fst).reverse
        ↔ ∃ e ∈ buildInDegree g, e.1 = v ∧ e.2 = 0 := by
    intro v
    rw [List.mem_reverse, List.mem_map]
    constructor
    · rintro ⟨e, he, hfst⟩
      have hm := List.mem_filter.mp he
      exact ⟨e, hm.1, hfst, by simpa using hm.2⟩
    · rintro ⟨e, he, hfst, hz⟩
      exact ⟨e, List.mem_filter.mpr ⟨he, by simpa using hz⟩, hfst⟩
  have hzero_pend : ∀ v,
      v ∈ (((buildInDegree g).filter (fun e => e.2 = 0)).map Prod.fst).reverse
        → pendIn g [] v = 0 := by
    intro v hv
    obtain ⟨e, he, hfst, hz⟩ := (hstack v).mp hv
    have h1 : alGet (buildInDegree g) e.1 = some e.2 := alGet_of_mem_nodup hnd he
    have h2 : alGet (buildInDegree g) v = some (pendIn g [] v) :=
      hval v ((hkeys v).mp (hfst ▸ List.mem_map_of_mem Prod.fst he))
    rw [hfst] at h1
    rw [h1] at h2
    have := Option.some.inj h2
    omega
  refine ⟨hg, fun v => hkeys v, hnd, ?_, ?_, ?_, by simp, hzero_pend,
    List.nodup_nil, by simp, by simp, ?_, by simp⟩
  · intro v hv
    exact hval v ((hkeys v).mp hv)
  · rw [List.nodup_reverse]
    exact (List.filter_sublist _).map Prod.fst |>.nodup hnd
  · intro v hv
    obtain ⟨e, he, hfst, _⟩ := (hstack v).mp hv
    exact hfst ▸ List.mem_map_of_mem Prod.fst he
  · intro v hv _ hvk
    have halg : alGet (buildInDegree g) v = some (pendIn g [] v) :=
      hval v ((hkeys v).mp hv)
    rcases Nat.eq_zero_or_pos (pendIn g [] v) with hz | hp
    · exfalso
      apply hvk
      rw [hstack v]
      exact ⟨(v, pendIn g [] v), alGet_some_mem halg, rfl, hz⟩
    · exact hp

/-- The Kahn loop, given enough fuel, terminates with an empty stack and
preserves the invariant: the result satisfies `KahnInv` with no stack. -/
lemma kahnLoop_spec (g : List (Index × List Index)) :
    ∀ (fuel : Nat) (deg : List (Index × Nat)) (stack sorted : List Index),
    KahnInv g deg stack sorted →
    (keysOf deg).length < fuel + sorted.length →
    KahnInv g (kahnLoop g fuel deg stack sorted).2 []
      (kahnLoop g fuel deg stack sorted).1 := by
  intro fuel
  induction fuel with
  | zero =>
    intro deg stack sorted hinv hfuel
    exfalso
    have hsub : sorted.toFinset ⊆ (keysOf deg).toFinset := by
      intro v hv
      rw [List.mem_toFinset] at hv ⊢
      exact hinv.osub v hv
    have h1 : sorted.length ≤ (keysOf deg).length := by
      calc sorted.length = sorted.toFinset.card :=
            (List.toFinset_card_of_nodup hinv.onodup).symm
        _ ≤ (keysOf deg).toFinset.card := Finset.card_le_card hsub
        _ ≤ (keysOf deg).length := (keysOf deg).toFinset_card_le
    omega
  | succ fuel ih =>
    intro deg stack sorted hinv hfuel
    cases stack with
    | nil => exact hinv
    | cons node stk =>
      cases hga : alGet g node with
      | none =>
        have heq : kahnLoop g (fuel + 1) deg (node :: stk) sorted
            = kahnLoop g fuel deg stk (sorted ++ [node]) := by
          simp only [kahnLoop, hga]
        rw [heq]
        apply ih _ _ _ (kahnInv_step_none hinv hga)
        simp only [List.length_append, List.length_cons, List.length_nil]
        omega
      | some adj =>
        obtain ⟨hinv', hkeys⟩ := kahnInv_step_some hinv hga
        have heq : kahnLoop g (fuel + 1) deg (node :: stk) sorted
            = kahnLoop g fuel (kahnProcess adj (deg, stk)).1
                (kahnProcess adj (deg, stk)).2 (sorted ++ [node]) := by
          simp only [kahnLoop, hga]
        rw [heq]
        apply ih _ _ _ hinv'
        rw [hkeys]
        simp only [List.length_append, List.length_cons, List.length_nil]
        omega

/-- Full correctness of `topological_sort` on graphs whose adjacency map has
no duplicate keys (always true of maps built through `entry`): `sorted` and
`cycles` partition the node universe, `sorted` respects the edge order, the
`cycles` remainder is closed under out-edges, and its members keep a
positive pending in-degree (so each has an in-edge in the graph). -/
lemma topological_sort_spec (g : DependancyGraph)
    (hg : (keysOf g.allows_compute).Nodup) :
    (g.topological_sort).sorted.Nodup ∧
    (g.topological_sort).cycles.Nodup ∧
    (∀ v, nodeMem g.allows_compute v ↔
      (v ∈ (g.topological_sort).sorted ∨ v ∈ (g.topological_sort).cycles)) ∧
    (∀ v, v ∈ (g.topological_sort).sorted → v ∉ (g.topological_sort).cycles) ∧
    (∀ u v, edgeL g.allows_compute u v → v ∈ (g.topological_sort).sorted →
      ∃ s1 s2, (g.topological_sort).sorted = s1 ++ v :: s2 ∧ u ∈ s1) ∧
    (∀ u v, edgeL g.allows_compute u v → u ∈ (g.topological_sort).cycles →
      v ∈ (g.topological_sort).cycles) ∧
    (∀ v ∈ (g.topological_sort).cycles, 0 < pendIn g.allows_compute [] v) := by
  have hinit := kahnInv_init g.allows_compute hg
  have hlen : (keysOf (buildInDegree g.allows_compute)).length
      < ((buildInDegree g.allows_compute).length + 1) + ([] : List Index).length := by
    simp [keysOf]
  have hfin := kahnLoop_spec g.allows_compute _ _ _ _ hinit hlen
  set res := kahnLoop g.allows_compute ((buildInDegree g.allows_compute).length + 1)
      (buildInDegree g.allows_compute)
      (((buildInDegree g.allows_compute).filter (fun e => e.2 = 0)).map Prod.fst).reverse
      [] with hres
  have hts : g.topological_sort
      = ⟨res.1, (res.2.filter (fun e => 0 < e.2)).map Prod.fst⟩ := rfl
  have hcyc : ∀ v, v ∈ (g.topological_sort).cycles
      ↔ (v ∈ keysOf res.2 ∧ 0 < pendIn g.allows_compute res.1 v) := by
    intro v
    rw [hts]
    show v ∈ (res.2.filter (fun e => 0 < e.2)).map Prod.fst ↔ _
    rw [mem_filter_map_keys hfin.dnodup v]
    constructor
    · rintro ⟨n, hn, hpos⟩
      have hk := mem_keysOf_of_alGet hn
      have := hfin.dval v hk
      rw [hn] at this
      have hnv := Option.some.inj this
      exact ⟨hk, by omega⟩
    · rintro ⟨hk, hpos⟩
      exact ⟨pendIn g.allows_compute res.1 v, hfin.dval v hk, hpos⟩
  have hsorted_eq : (g.topological_sort).sorted = res.1 := rfl
  refine ⟨?_, ?_, ?_, ?_, ?_, ?_, ?_⟩
  · rw [hsorted_eq]
    exact hfin.onodup
  · rw [hts]
    exact ((List.filter_sublist _).map Prod.fst).nodup hfin.dnodup
  · intro v
    rw [← hfin.dkeys v, hsorted_eq, hcyc v]
    constructor
    · intro hk
      by_cases hs : v ∈ res.1
      · exact Or.inl hs
      · exact Or.inr ⟨hk, hfin.covered v hk hs (by simp)⟩
    · rintro (hs | ⟨hk, _⟩)
      · exact hfin.osub v hs
      · exact hk
  · intro v hs hc
    rw [hsorted_eq] at hs
    rw [hcyc v] at hc
    have := hfin.ozero v hs
    omega
  · intro u v he hv
    rw [hsorted_eq] at hv ⊢
    exact hfin.ordered u v he hv
  · intro u v he hu
    rw [hcyc u] at hu
    rw [hcyc v]
    obtain ⟨l, hl, hm⟩ := he
    have hun : u ∉ res.1 := by
      intro h
      have := hfin.ozero u h
      omega
    have hvpos : 0 < pendIn g.allows_compute res.1 v :=
      (pendIn_pos_iff g.allows_compute res.1 v).mpr
        ⟨(u, l), alGet_some_mem hl, hun, hm⟩
    have hvk : v ∈ keysOf res.2 := by
      rw [hfin.dkeys v]
      exact Or.inr ⟨(u, l), alGet_some_mem hl, hm⟩
    exact ⟨hvk, hvpos⟩
  · intro v hv
    rw [hcyc v] at hv
    have := pendIn_le_nil g.allows_compute res.1 v
    omega


/-! ### Helper lemmas on the graph operations -/


lemma alGet_map_filter (l : List (Index × List Index)) (addr u : Index) :
    alGet (l.map (fun e => (e.1, e.2.filter (fun x => x ≠ addr)))) u
      = (alGet l u).map (fun L => L.filter (fun x => x ≠ addr)) := by
  induction l with
  | nil => rfl
  | cons e rest ih =>
    rcases e with ⟨k, L⟩
    simp only [List.map_cons, alGet]
    by_cases h : k = u
    · rw [if_pos h, if_pos h]
      rfl
    · rw [if_neg h, if_neg h]
      exact ih

/-- `remove_node` is the identity when the node occurs in no adjacency
list. -/
lemma remove_node_noop {g : DependancyGraph} {idx : Index}
    (h : ∀ e ∈ g.allows_compute, idx ∉ e.2) : g.remove_node idx = g := by
  unfold DependancyGraph.remove_node
  cases g with
  | mk l =>
    simp only [DependancyGraph.mk.injEq]
    induction l with
    | nil => rfl
    | cons e rest ih =>
      simp only [List.map_cons, List.cons.injEq]
      constructor
      · have he : idx ∉ e.2 := h e (by simp)
        have : e.2.filter (fun x => x ≠ idx) = e.2 := by
          apply List.filter_eq_self.mpr
          intro a ha
          exact decide_eq_true (fun hax => he (hax ▸ ha))
        rw [this]
      · exact ih (fun e' he' => h e' (by simp [he']))

/-- `compute_cell` only reads the cell map. -/
lemma compute_cell_congr {s t : SpreadSheet} (h : s.cells = t.cells) (c : Cell) :
    s.compute_cell c = t.compute_cell c := by
  unfold SpreadSheet.compute_cell
  have hctx : sheetCtx s = sheetCtx t := by
    funext i
    unfold sheetCtx SpreadSheet.get_computed
    rw [h]
  rw [hctx]

/-- A cell already carrying the `Cycle` error with its dirty flag set keeps
both through the cycles pass (a revisit rewrites the same error and still
does not touch the flag). -/
lemma cyclesPass_preserves (l : List Index) :
    ∀ (s s' : SpreadSheet) (idx : Index) (c : Cell),
    alGet s.cells idx = some c → c.needs_compute = true →
    c.computed_value = some (Except.error ComputeError.Cycle) →
    computeCyclesPass l s = some s' →
    ∃ c', alGet s'.cells idx = some c' ∧ c'.needs_compute = true ∧
      c'.computed_value = some (Except.error ComputeError.Cycle) := by
  induction l with
  | nil =>
    intro s s' idx c hc hn hcy hpass
    have hss : s = s' := by simpa [computeCyclesPass] using hpass
    exact ⟨c, hss ▸ hc, hn, hcy⟩
  | cons d rest ih =>
    intro s s' idx c hc hn hcy hpass
    unfold computeCyclesPass at hpass
    cases hd : alGet s.cells d with
    | none =>
      rw [hd] at hpass
      exact absurd hpass (by simp)
    | some cd =>
      rw [hd] at hpass
      dsimp only at hpass
      by_cases hnd : cd.needs_compute = false
      · rw [if_pos hnd] at hpass
        exact ih s s' idx c hc hn hcy hpass
      · rw [if_neg hnd] at hpass
        by_cases hid : idx = d
        · subst hid
          have hcd : cd = c := by
            rw [hd] at hc
            exact Option.some.inj hc
          subst hcd
          refine ih _ s' idx
            { cd with computed_value := some (Except.error ComputeError.Cycle) }
            ?_ hn rfl hpass
          exact alGet_alSet_self s.cells idx _
        · refine ih _ s' idx c ?_ hn hcy hpass
          show alGet (alSet s.cells d _) idx = some c
          rw [alGet_alSet_ne s.cells d _ hid, hc]

/-- The cycles pass of `compute_all` writes the `Cycle` error into every
dirty cell it is pointed at, and leaves the `needs_compute` flag set. -/
lemma cyclesPass_writes (l : List Index) :
    ∀ (s s' : SpreadSheet) (idx : Index) (c : Cell),
    idx ∈ l → alGet s.cells idx = some c → c.needs_compute = true →
    computeCyclesPass l s = some s' →
    ∃ c', alGet s'.cells idx = some c' ∧ c'.needs_compute = true ∧
      c'.computed_value = some (Except.error ComputeError.Cycle) := by
  induction l with
  | nil =>
    intro s s' idx c hmem
    simp at hmem
  | cons d rest ih =>
    intro s s' idx c hmem hc hn hpass
    unfold computeCyclesPass at hpass
    cases hd : alGet s.cells d with
    | none =>
      rw [hd] at hpass
      exact absurd hpass (by simp)
    | some cd =>
      rw [hd] at hpass
      dsimp only at hpass
      by_cases hnd : cd.needs_compute = false
      · rw [if_pos hnd] at hpass
        have hid : idx ≠ d := by
          intro h
          subst h
          rw [hd] at hc
          have hcd : cd = c := Option.some.inj hc
          rw [hcd, hn] at hnd
          simp at hnd
        have hrest : idx ∈ rest := by
          rcases List.mem_cons.mp hmem with h | h
          · exact absurd h hid
          · exact h
        exact ih s s' idx c hrest hc hn hpass
      · rw [if_neg hnd] at hpass
        by_cases hid : idx = d
        · subst hid
          have hcd : cd = c := by
            rw [hd] at hc
            exact Option.some.inj hc
          subst hcd
          refine cyclesPass_preserves rest _ s' idx
            { cd with computed_value := some (Except.error ComputeError.Cycle) }
            ?_ hn rfl hpass
          exact alGet_alSet_self s.cells idx _
        · have hrest : idx ∈ rest := by
            rcases List.mem_cons.mp hmem with h | h
            · exact absurd h hid
            · exact h
          refine ih _ s' idx c hrest ?_ hn hpass
          show alGet (alSet s.cells d _) idx = some c
          rw [alGet_alSet_ne s.cells d _ hid, hc]

/-- The sorted pass of `compute_all` modifies no cell outside the list it
processes. -/
lemma sortedPass_untouched (l : List Index) :
    ∀ (s s' : SpreadSheet), computeSortedPass l s = some s' →
    ∀ idx, idx ∉ l → alGet s'.cells idx = alGet s.cells idx := by
  induction l with
  | nil =>
    intro s s' hpass idx _
    have hss : s = s' := by simpa [computeSortedPass] using hpass
    rw [hss]
  | cons d rest ih =>
    intro s s' hpass idx hnot
    have hid : idx ≠ d := by
      intro h
      exact hnot (by simp [h])
    have hrest : idx ∉ rest := fun h => hnot (by simp [h])
    unfold computeSortedPass at hpass
    cases hd : alGet s.cells d with
    | none =>
      rw [hd] at hpass
      exact ih s s' hpass idx hrest
    | some cd =>
      rw [hd] at hpass
      dsimp only at hpass
      by_cases hnd : cd.needs_compute = false
      · rw [if_pos hnd] at hpass
        exact ih s s' hpass idx hrest
      · rw [if_neg hnd] at hpass
        cases hcc : s.compute_cell cd with
        | none =>
          rw [hcc] at hpass
          exact absurd hpass (by simp)
        | some computed =>
          rw [hcc] at hpass
          rw [ih _ s' hpass idx hrest]
          show alGet (alSet s.cells d _) idx = alGet s.cells idx
          rw [alGet_alSet_ne s.cells d _ hid]

/-! ### Claim C1 (code bug): comparison and logical operators panic in the
resolver -/

/-- Claim C1, code bug: the spec promises value-level semantics for
`< > <= >= == != && ||` (and `Value` implements them, e.g.
`Value::less_than`), and the AST builder parses `=1<2` into the
corresponding `BinaryOp`; but `ASTResolver::resolve` dispatches only
`+ - * /` and hits `panic!("{other:?} is not a binary operator")` on every
comparison or logical operator, so inserting `=1<2` aborts the process
instead of computing `Bool(true)`. -/
theorem claim_C1_comparison_ops_panic :
    Value.less_than (Value.Number 1) (Value.Number 2) = some (Value.Bool true) ∧
    parse_cellRaw "=1<2" = some (Except.ok (ParsedCell.Expr
      ⟨AST.BinaryOp Token.LessThan (AST.Value (Value.Number 1))
        (AST.Value (Value.Number 2)), []⟩)) ∧
    resolve (AST.BinaryOp Token.LessThan (AST.Value (Value.Number 1))
      (AST.Value (Value.Number 2))) (fun _ => none) = none ∧
    emptySheet.add_cell_and_compute idxA1 "=1<2" = none := by
  refine ⟨by decide, by decide, by decide, by decide⟩

/-! ### Claim C10 (confirmed): row-0 cell names abort -/

/-- Claim C10, confirmed: the tokenizer accepts `A0` as a `CellName`, but
`get_cell_idx` subtracts 1 from the parsed row number 0 in an unsigned
type, so it aborts; inserting the formula `=A0` aborts inside
`find_dependants` instead of storing an error in the cell. -/
theorem claim_C10_row_zero_aborts :
    parse_cell_name_or_bool (("A0").toList)
      = Except.ok (Token.CellName "A0", []) ∧
    tokenize_expression (("A0").toList)
      = some (Except.ok [Token.CellName "A0"]) ∧
    get_cell_idx "A0" = none ∧
    emptySheet.add_cell_and_compute idxA1 "=A0" = none := by
  refine ⟨by decide, by decide, by decide, by decide⟩

/-! ### Claim C4: dependency collection -/

/-- Claim C4, counterexample: for the formula `=A1+A1+sum(A1:B2)` the claim
demands each referenced address once per distinct name and the whole
rectangular span of `A1:B2`; the stored list actually holds `A1` three times
(once per token occurrence) and omits the interior address `(0, 1)` of the
range (only the two corner names contribute). -/
theorem claim_C4_counterexample :
    parse_cellRaw "=A1+A1+sum(A1:B2)" = some (Except.ok (ParsedCell.Expr
      ⟨AST.BinaryOp Token.Plus
        (AST.BinaryOp Token.Plus (AST.CellName "A1") (AST.CellName "A1"))
        (AST.FunctionCall "sum" [AST.Range "A1" "B2"]),
        [idxA1, idxA1, idxA1, idxB2]⟩)) ∧
    List.count idxA1 [idxA1, idxA1, idxA1, idxB2] = 3 ∧
    ⟨0, 1⟩ ∉ [idxA1, idxA1, idxA1, idxB2] := by
  refine ⟨by decide, by decide, by decide⟩

/-- Claim C4, amended: `find_dependants` stores one address per `CellName`
token occurrence — duplicates are kept, and a range `from:to` contributes
only the addresses of its two corner name tokens (the `Colon` token
contributes nothing, so the interior of the rectangle is absent).  The
multiplicity of every address in the stored list equals the number of
`CellName` tokens naming it. -/
theorem claim_C4_amended (tokens : List Token) (l : List Index)
    (h : find_dependants tokens = some l) (i : Index) :
    List.count i l = tokens.countP (fun t =>
      match t with
      | Token.CellName n => decide (get_cell_idx n = some i)
      | _ => false) := by
  induction tokens generalizing l with
  | nil =>
    simp only [find_dependants, Option.some_inj] at h
    subst h
    rfl
  | cons t rest ih =>
    match t with
    | Token.CellName n =>
      simp only [find_dependants] at h
      match hg : get_cell_idx n with
      | none => rw [hg] at h; exact absurd h (by simp)
      | some j =>
        rw [hg] at h
        match hf : find_dependants rest with
        | none => rw [hf] at h; exact absurd h (by simp)
        | some l' =>
          rw [hf] at h
          simp only [Option.some_inj] at h
          subst h
          rw [List.countP_cons, List.count_cons, ih l' hf]
          by_cases hij : j = i
          · subst hij
            simp [hg]
          · simp [hg, hij]
    | Token.Number q => simpa [find_dependants, List.countP_cons] using ih l h
    | Token.StringLiteral str =>
        simpa [find_dependants, List.countP_cons] using ih l h
    | Token.Plus => simpa [find_dependants, List.countP_cons] using ih l h
    | Token.Minus => simpa [find_dependants, List.countP_cons] using ih l h
    | Token.Division => simpa [find_dependants, List.countP_cons] using ih l h
    | Token.Multiply => simpa [find_dependants, List.countP_cons] using ih l h
    | Token.LParen => simpa [find_dependants, List.countP_cons] using ih l h
    | Token.RParen => simpa [find_dependants, List.countP_cons] using ih l h
    | Token.Colon => simpa [find_dependants, List.countP_cons] using ih l h
    | Token.Comma => simpa [find_dependants, List.countP_cons] using ih l h
    | Token.FunctionName n =>
        simpa [find_dependants, List.countP_cons] using ih l h
    | Token.Bool b => simpa [find_dependants, List.countP_cons] using ih l h
    | Token.Equals => simpa [find_dependants, List.countP_cons] using ih l h
    | Token.NotEquals => simpa [find_dependants, List.countP_cons] using ih l h
    | Token.GreaterThan => simpa [find_dependants, List.countP_cons] using ih l h
    | Token.LessThan => simpa [find_dependants, List.countP_cons] using ih l h
    | Token.GreaterEquals => simpa [find_dependants, List.countP_cons] using ih l h
    | Token.LessEquals => simpa [find_dependants, List.countP_cons] using ih l h
    | Token.And => simpa [find_dependants, List.countP_cons] using ih l h
    | Token.Or => simpa [find_dependants, List.countP_cons] using ih l h
    | Token.Not => simpa [find_dependants, List.countP_cons] using ih l h

/-- Witness for `claim_C4_amended` on the token list of `A1:B2`. -/
theorem claim_C4_amended_witness :
    List.count idxA1 [idxA1, idxB2]
      = [Token.CellName "A1", Token.Colon, Token.CellName "B2"].countP (fun t =>
        match t with
        | Token.CellName n => decide (get_cell_idx n = some idxA1)
        | _ => false) :=
  claim_C4_amended [Token.CellName "A1", Token.Colon, Token.CellName "B2"]
    [idxA1, idxB2] (by decide) idxA1

/-! ### Claim C7: `remove_node` -/

/-- Claim C7, counterexample: in the graph built by
`add_node(B1, [A1])` (so `A1`'s node carries the out-edge to `B1`),
`remove_node(A1)` leaves the node `A1` in the map, out-edge list intact —
the claim's "the node itself (its key and out-edge list) is deleted" fails.
-/
theorem claim_C7_counterexample :
    alGet (((DependancyGraph.add_node ⟨[]⟩ idxB1 [idxA1]).remove_node
      idxA1).allows_compute) idxA1 = some [idxB1] := by
  decide

/-- Claim C7, amended: `remove_node(addr)` removes `addr` from every
adjacency list — afterwards the graph has an edge `u → v` exactly when the
old graph had it and `v ≠ addr` — but the node set is unchanged: `addr`'s
own key and (filtered) out-edge list survive. -/
theorem claim_C7_amended (g : DependancyGraph) (addr : Index) :
    ((g.remove_node addr).allows_compute.map Prod.fst
      = g.allows_compute.map Prod.fst) ∧
    (∀ u v, edgeMem (g.remove_node addr) u v ↔ edgeMem g u v ∧ v ≠ addr) := by
  constructor
  · show ((g.allows_compute.map
      (fun e => (e.1, e.2.filter (fun x => x ≠ addr)))).map Prod.fst) = _
    induction g.allows_compute with
    | nil => rfl
    | cons e rest ih => simp [ih]
  · intro u v
    unfold edgeMem DependancyGraph.remove_node
    rw [alGet_map_filter]
    constructor
    · rintro ⟨l, hl, hv⟩
      match hg : alGet g.allows_compute u with
      | none => rw [hg] at hl; exact absurd hl (by simp)
      | some L =>
        rw [hg] at hl
        have hl' : L.filter (fun x => x ≠ addr) = l := by simpa using hl
        subst hl'
        have := List.mem_filter.mp hv
        refine ⟨⟨L, rfl, this.1⟩, by simpa using this.2⟩
    · rintro ⟨⟨l, hl, hv⟩, hne⟩
      refine ⟨l.filter (fun x => x ≠ addr), by rw [hl]; rfl, ?_⟩
      exact List.mem_filter.mpr ⟨hv, by simpa using hne⟩

/-! ### Claim C5: insert on an occupied address vs mutate -/

/-- Claim C5, counterexample: with `A1` already holding `=B1` (edge
`B1 → A1` present), a second `insert(A1, "=B1")` appends a duplicate edge
`B1 → A1`, while `mutate(A1, "=B1")` first clears `A1`'s in-edges — the
resulting dependency graphs (hence the states) differ. -/
theorem claim_C5_counterexample :
    ((emptySheet.add_cell_and_compute idxA1 "=B1").bind
        (fun s => s.add_cell_and_compute idxA1 "=B1")).map
          (fun s => s.dependencies)
      = some ⟨[(idxA1, []), (idxB1, [idxA1, idxA1])]⟩ ∧
    ((emptySheet.add_cell_and_compute idxA1 "=B1").bind
        (fun s => s.mutate_cell idxA1 "=B1")).map (fun s => s.dependencies)
      = some ⟨[(idxA1, []), (idxB1, [idxA1])]⟩ ∧
    ((emptySheet.add_cell_and_compute idxA1 "=B1").bind
        (fun s => s.add_cell_and_compute idxA1 "=B1"))
      ≠ ((emptySheet.add_cell_and_compute idxA1 "=B1").bind
        (fun s => s.mutate_cell idxA1 "=B1")) := by
  refine ⟨by decide, by decide, by decide⟩


lemma add_dependencies_eq (s : SpreadSheet) (index : Index) (cell : Cell) :
    s.add_dependencies index cell
      = { s with dependencies := s.dependencies.add_node index (cellDeps cell) } := by
  rcases hpr : cell.parsed_representation with _ | pr
  · simp [SpreadSheet.add_dependencies, cellDeps, hpr]
  · rcases pr with e | pc
    · simp [SpreadSheet.add_dependencies, cellDeps, hpr]
    · rcases pc with v | ex
      · simp [SpreadSheet.add_dependencies, cellDeps, hpr]
      · simp [SpreadSheet.add_dependencies, cellDeps, hpr]

lemma update_dependencies_eq (s : SpreadSheet) (index : Index) (cell : Cell) :
    s.update_dependencies index cell
      = { s with dependencies := s.dependencies.change_node index (cellDeps cell) } := by
  rcases hpr : cell.parsed_representation with _ | pr
  · simp [SpreadSheet.update_dependencies, cellDeps, hpr]
  · rcases pr with e | pc
    · simp [SpreadSheet.update_dependencies, cellDeps, hpr]
    · rcases pc with v | ex
      · simp [SpreadSheet.update_dependencies, cellDeps, hpr]
      · simp [SpreadSheet.update_dependencies, cellDeps, hpr]

/-- Claim C5, amended: when the occupied address has no in-edges in the
dependency graph (it occurs in no adjacency list), `add_cell_and_compute`
and `mutate_cell` coincide exactly; in general they differ only in that
insert keeps the old in-edges of the address and appends the new ones
(duplicating them), while mutate clears them first (the counterexample). -/
theorem claim_C5_amended (s : SpreadSheet) (index : Index) (raw : String)
    (hocc : (alGet s.cells index).isSome = true)
    (hnoin : ∀ e ∈ s.dependencies.allows_compute, index ∉ e.2) :
    s.add_cell_and_compute index raw = s.mutate_cell index raw := by
  obtain ⟨c0, hc0⟩ := Option.isSome_iff_exists.mp hocc
  unfold SpreadSheet.add_cell_and_compute SpreadSheet.mutate_cell
  cases hp : CellParser_parse_cell (Cell.from_raw raw) with
  | none => rfl
  | some cell =>
    dsimp only
    rw [add_dependencies_eq]
    have hcomp :
        SpreadSheet.compute_cell
          { s with dependencies := s.dependencies.add_node index (cellDeps cell) } cell
        = s.compute_cell cell :=
      compute_cell_congr rfl cell
    rw [hcomp]
    cases hcc : s.compute_cell cell with
    | none => rfl
    | some computed =>
      dsimp only
      rw [update_dependencies_eq]
      have hcd : cellDeps
          { needs_compute := false,
            raw_representation := cell.raw_representation,
            parsed_representation := cell.parsed_representation,
            computed_value := computed } = cellDeps cell := rfl
      rw [hcd]
      have hchg : s.dependencies.change_node index (cellDeps cell)
          = s.dependencies.add_node index (cellDeps cell) := by
        unfold DependancyGraph.change_node
        rw [remove_node_noop hnoin]
      rw [hchg]
      dsimp only
      rw [hc0]

/-- Witness for `claim_C5_amended`: a sheet whose only cell `A1` holds the
literal `5` (no in-edges), re-inserted versus mutated with `7`. -/
theorem claim_C5_amended_witness :
    ((emptySheet.add_cell_and_compute idxA1 "5").getD emptySheet).add_cell_and_compute
        idxA1 "7"
      = ((emptySheet.add_cell_and_compute idxA1 "5").getD emptySheet).mutate_cell
        idxA1 "7" :=
  claim_C5_amended ((emptySheet.add_cell_and_compute idxA1 "5").getD emptySheet)
    idxA1 "7" (by decide) (by decide)

/-! ### Claims C6 and C3: counterexamples -/

/-- Claim C6, counterexample: after `insert(A1, "=A1")` the cell at `A1`
has a present `computed_value` (the `Cycle` error) while `needs_compute` is
still `true` — the cycles pass of `compute_all` never clears the flag, so
"computed present ⇔ needs_compute false" fails after a public operation. -/
theorem claim_C6_counterexample :
    ((emptySheet.add_cell_and_compute idxA1 "=A1").bind
        (fun s => alGet s.cells idxA1)).map
          (fun c => (c.needs_compute, c.computed_value))
      = some (true, some (Except.error ComputeError.Cycle)) := by
  decide

/-- Claim C3, counterexample: insert `A1 = "=A1"` (a self-cycle), then
`B1 = "=A1"`.  `B1` lies on no cycle of the dependency graph (it is not
forward-reachable from itself), yet its computed value is the `Cycle`
error, propagated from reading `A1` — "computed = Cycle iff the cell is on
a cycle" fails. -/
theorem claim_C3_counterexample :
    (((emptySheet.add_cell_and_compute idxA1 "=A1").bind
        (fun s => s.add_cell_and_compute idxB1 "=A1")).bind
          (fun s => s.get_computed idxB1))
      = some (Except.error ComputeError.Cycle) ∧
    (((emptySheet.add_cell_and_compute idxA1 "=A1").bind
        (fun s => s.add_cell_and_compute idxB1 "=A1")).map
          (fun s => decide (idxB1 ∈ s.dependencies.get_all_dependants idxB1)))
      = some false ∧
    (((emptySheet.add_cell_and_compute idxA1 "=A1").bind
        (fun s => s.add_cell_and_compute idxB1 "=A1")).map
          (fun s => decide (idxA1 ∈ s.dependencies.get_all_dependants idxA1)))
      = some true := by
  refine ⟨by decide, by decide, by decide⟩

/-- Claim C6, amended: the cycles pass of `compute_all` writes the `Cycle`
error into the `computed_value` of every dirty cell it is pointed at, but —
unlike the sorted pass — it does not clear the `needs_compute` flag, so such
cells end with `computed` present and `needs_compute` still `true`. -/
theorem claim_C6_amended (l : List Index) (s s' : SpreadSheet) (idx : Index)
    (cell : Cell) (hmem : idx ∈ l) (hcell : alGet s.cells idx = some cell)
    (hdirty : cell.needs_compute = true)
    (hpass : computeCyclesPass l s = some s') :
    ∃ c', alGet s'.cells idx = some c' ∧
      c'.computed_value = some (Except.error ComputeError.Cycle) ∧
      c'.needs_compute = true := by
  obtain ⟨c', h1, h2, h3⟩ := cyclesPass_writes l s s' idx cell hmem hcell hdirty hpass
  exact ⟨c', h1, h3, h2⟩

theorem claim_C6_amended_witness :
    ∃ c', alGet (SpreadSheet.mk
        [(idxA1, ⟨true, "=A1", none, some (Except.error ComputeError.Cycle)⟩)]
        ⟨[]⟩).cells idxA1 = some c' ∧
      c'.computed_value = some (Except.error ComputeError.Cycle) ∧
      c'.needs_compute = true :=
  claim_C6_amended [idxA1] ⟨[(idxA1, ⟨true, "=A1", none, none⟩)], ⟨[]⟩⟩
    ⟨[(idxA1, ⟨true, "=A1", none, some (Except.error ComputeError.Cycle)⟩)], ⟨[]⟩⟩
    idxA1 ⟨true, "=A1", none, none⟩ (by decide) (by decide) (by decide) (by decide)

/-- Claim C3, amended: the `Cycle` error is not tied to cycle membership of
the graph.  What holds is: when `compute_all` succeeds, every dirty cell
whose address lies in the `cycles` remainder of the topological sort (the
nodes with leftover in-degree, not necessarily on an actual cycle)
ends with `computed = Cycle`; conversely (the counterexample) a cell on no
cycle can also hold `Cycle`, propagated through evaluation of a reference
to a cyclic cell. -/
theorem claim_C3_amended (s s' : SpreadSheet) (idx : Index) (cell : Cell)
    (hnd : (keysOf s.dependencies.allows_compute).Nodup)
    (hmem : idx ∈ (s.dependencies.topological_sort).cycles)
    (hcell : alGet s.cells idx = some cell)
    (hdirty : cell.needs_compute = true)
    (hall : s.compute_all = some s') :
    s'.get_computed idx = some (Except.error ComputeError.Cycle) := by
  unfold SpreadSheet.compute_all at hall
  dsimp only at hall
  cases hsp : computeSortedPass (s.dependencies.topological_sort).sorted s with
  | none =>
    rw [hsp] at hall
    exact absurd hall (by simp)
  | some s1 =>
    rw [hsp] at hall
    dsimp only at hall
    have hnot : idx ∉ (s.dependencies.topological_sort).sorted := by
      intro h
      exact (topological_sort_spec s.dependencies hnd).2.2.2.1 idx h hmem
    have hcells1 : alGet s1.cells idx = some cell := by
      rw [sortedPass_untouched _ _ _ hsp idx hnot, hcell]
    obtain ⟨c', hc', hn', hcy'⟩ :=
      cyclesPass_writes _ _ _ _ _ hmem hcells1 hdirty hall
    unfold SpreadSheet.get_computed
    rw [hc']
    dsimp only
    rw [hcy']

theorem claim_C3_amended_witness :
    SpreadSheet.get_computed
      ⟨[(idxA1, ⟨true, "=A1",
          some (Except.ok (ParsedCell.Expr ⟨AST.CellName "A1", [idxA1]⟩)),
          some (Except.error ComputeError.Cycle)⟩)],
        ⟨[(idxA1, [idxA1])]⟩⟩ idxA1
      = some (Except.error ComputeError.Cycle) :=
  claim_C3_amended
    ⟨[(idxA1, ⟨true, "=A1",
        some (Except.ok (ParsedCell.Expr ⟨AST.CellName "A1", [idxA1]⟩)), none⟩)],
      ⟨[(idxA1, [idxA1])]⟩⟩
    ⟨[(idxA1, ⟨true, "=A1",
        some (Except.ok (ParsedCell.Expr ⟨AST.CellName "A1", [idxA1]⟩)),
        some (Except.error ComputeError.Cycle)⟩)],
      ⟨[(idxA1, [idxA1])]⟩⟩
    idxA1
    ⟨true, "=A1",
      some (Except.ok (ParsedCell.Expr ⟨AST.CellName "A1", [idxA1]⟩)), none⟩
    (by decide) (by decide) (by decide) (by decide) (by decide)

/-! ### Claim C2: totality of the public operations -/

/-- Claim C2, counterexample: `mutate` at an empty address aborts (the
`expect("Expected valid index for mutate cell")`), and `insert` aborts both
on a row-0 reference (`=A0`, `get_cell_idx` underflow) and on a formula with
a comparison operator (`=1<2`, the resolver's panicking `BinaryOp` arm) —
none of these stores an error in a cell. -/
theorem claim_C2_counterexample :
    emptySheet.mutate_cell idxA1 "5" = none ∧
    emptySheet.add_cell_and_compute idxA1 "=A0" = none ∧
    emptySheet.add_cell_and_compute idxA1 "=1<2" = none := by
  refine ⟨by decide, by decide, by decide⟩

/-- Claim C2, amended: `get_computed` and `get_raw` are total, and parse or
evaluation errors of the supported operator set are stored in the cell; but
`mutate_cell` at an address holding no cell always aborts, whatever the raw
text parses to (and insert/mutate abort on raw texts whose dependency
collection or evaluation hits a panicking path: row-0 references,
comparison/logical operators, unary minus). -/
theorem claim_C2_amended (s : SpreadSheet) (index : Index) (raw : String)
    (h : alGet s.cells index = none) :
    s.mutate_cell index raw = none := by
  unfold SpreadSheet.mutate_cell
  cases hp : CellParser_parse_cell (Cell.from_raw raw) with
  | none => rfl
  | some new_cell =>
    dsimp only
    cases hc : s.compute_cell new_cell with
    | none => rfl
    | some computed =>
      dsimp only
      rw [update_dependencies_eq]
      dsimp only
      rw [h]

theorem claim_C2_amended_witness :
    emptySheet.mutate_cell idxB1 "7" = none :=
  claim_C2_amended emptySheet idxB1 "7" (by decide)

/-! ### Claim C8: the partition and ordering of `topological_sort` -/

/-- Claim C8, counterexample: in the graph with edges `A1 → B1` and
`B1 → B1`, `topological_sort` returns `sorted = [A1]`, `cycles = [B1]`;
the edge `A1 → B1` has neither both ends in `cycles` (A1 is not there) nor
`A1` before `B1` in `sorted` (B1 is not there) — the claim's edge
disjunction fails for edges running from `sorted` into `cycles`. -/
theorem claim_C8_counterexample :
    edgeMem ⟨[(idxA1, [idxB1]), (idxB1, [idxB1])]⟩ idxA1 idxB1 ∧
    (DependancyGraph.topological_sort
      ⟨[(idxA1, [idxB1]), (idxB1, [idxB1])]⟩).sorted = [idxA1] ∧
    (DependancyGraph.topological_sort
      ⟨[(idxA1, [idxB1]), (idxB1, [idxB1])]⟩).cycles = [idxB1] ∧
    idxA1 ∉ (DependancyGraph.topological_sort
      ⟨[(idxA1, [idxB1]), (idxB1, [idxB1])]⟩).cycles ∧
    idxB1 ∉ (DependancyGraph.topological_sort
      ⟨[(idxA1, [idxB1]), (idxB1, [idxB1])]⟩).sorted :=
  ⟨⟨[idxB1], by decide, by decide⟩, by decide, by decide, by decide, by decide⟩

/-- Claim C8, amended: for a graph whose adjacency map has no duplicate
keys, `topological_sort` partitions the node universe (keys and edge
targets) into `sorted` and `cycles`; for every edge `u → v`, if `v` is in
`sorted` then `u` appears in `sorted` before `v`, and if `u` is in `cycles`
then `v` is in `cycles` — but an edge may run from `sorted` into `cycles`,
so the claimed two-way disjunction does not hold. -/
theorem claim_C8_amended (g : DependancyGraph)
    (hg : (keysOf g.allows_compute).Nodup) :
    (∀ v, nodeMem g.allows_compute v ↔
      (v ∈ (g.topological_sort).sorted ∨ v ∈ (g.topological_sort).cycles)) ∧
    (∀ v, v ∈ (g.topological_sort).sorted → v ∉ (g.topological_sort).cycles) ∧
    (∀ u v, edgeL g.allows_compute u v → v ∈ (g.topological_sort).sorted →
      ∃ s1 s2, (g.topological_sort).sorted = s1 ++ v :: s2 ∧ u ∈ s1) ∧
    (∀ u v, edgeL g.allows_compute u v → u ∈ (g.topological_sort).cycles →
      v ∈ (g.topological_sort).cycles) := by
  obtain ⟨_, _, h3, h4, h5, h6, _⟩ := topological_sort_spec g hg
  exact ⟨h3, h4, h5, h6⟩

theorem claim_C8_amended_witness :
    (∀ v, nodeMem (DependancyGraph.allows_compute ⟨[(idxA1, [idxB1])]⟩) v ↔
      (v ∈ (DependancyGraph.topological_sort ⟨[(idxA1, [idxB1])]⟩).sorted ∨
       v ∈ (DependancyGraph.topological_sort ⟨[(idxA1, [idxB1])]⟩).cycles)) ∧
    (∀ v, v ∈ (DependancyGraph.topological_sort ⟨[(idxA1, [idxB1])]⟩).sorted →
      v ∉ (DependancyGraph.topological_sort ⟨[(idxA1, [idxB1])]⟩).cycles) ∧
    (∀ u v, edgeL (DependancyGraph.allows_compute ⟨[(idxA1, [idxB1])]⟩) u v →
      v ∈ (DependancyGraph.topological_sort ⟨[(idxA1, [idxB1])]⟩).sorted →
      ∃ s1 s2, (DependancyGraph.topological_sort ⟨[(idxA1, [idxB1])]⟩).sorted
        = s1 ++ v :: s2 ∧ u ∈ s1) ∧
    (∀ u v, edgeL (DependancyGraph.allows_compute ⟨[(idxA1, [idxB1])]⟩) u v →
      u ∈ (DependancyGraph.topological_sort ⟨[(idxA1, [idxB1])]⟩).cycles →
      v ∈ (DependancyGraph.topological_sort ⟨[(idxA1, [idxB1])]⟩).cycles) :=
  claim_C8_amended ⟨[(idxA1, [idxB1])]⟩ (by decide)

/-- Claim C9, confirmed: rendering an address as bijective base-26 column
letters followed by the 1-based decimal row number and parsing it back with
`ASTResolver::get_cell_idx` yields the original pair. -/
theorem claim_C9_address_roundtrip (x y : Nat) :
    get_cell_idx (renderIndex x y) = some ⟨x, y⟩ := by
  unfold get_cell_idx renderIndex
  have htl : (String.mk (colChars x ++ natDigits (y + 1))).toList
      = colChars x ++ natDigits (y + 1) := rfl
  rw [htl, get_cell_idxGo_letters (colChars x) colChars_mem _ 0, colChars_foldl x 0]
  simpa using get_cell_idxGo_digits y (x + 1) (by omega)

end MiniSheet
